import Mathlib

/-!
# Verification of the font-maker raster→vector pipeline

Shallow embedding of the core algorithms of the handwriting-font pipeline
(template geometry, path-winding normalization, Douglas-Peucker
simplification, Zhang-Suen thinning, connected-component filtering,
endpoint welding, baseline normalization) together with proofs of the
behavioural claims about them.

Numeric conventions: the source computes with IEEE doubles; here
coordinates and measurements are embedded as exact rationals (`ℚ`), and
`Math.round` as `⌊x + 1/2⌋`.  Where the source compares a Euclidean
distance (a square root) against a bound, the embedding compares the
squared quantities, which is equivalent in exact arithmetic and keeps
every definition computable.
-/

namespace FontMaker

/-- JavaScript `Math.round`: round half up, i.e. `⌊x + 1/2⌋`. -/
def jsRound (q : ℚ) : ℤ := ⌊q + 1/2⌋

theorem jsRound_add_int (q : ℚ) (n : ℤ) : jsRound (q + n) = jsRound q + n := by
  unfold jsRound
  rw [show q + (n : ℚ) + 1/2 = q + 1/2 + (n : ℚ) by ring, Int.floor_add_int]

theorem jsRound_nonneg {q : ℚ} (h : 0 ≤ q) : 0 ≤ jsRound q := by
  unfold jsRound
  exact Int.le_floor.mpr (by push_cast; linarith)

/-! ## Template geometry (`TemplateDefinition.ts`) -/

/-- Supported page sizes. -/
inductive PageSize where
  | letter
  | a4
deriving DecidableEq

/-- `PAGE_SIZES_MM`: page dimensions in millimetres (width, height). -/
def pageSizeMm : PageSize → ℚ × ℚ
  | .letter => (2159/10, 2794/10)
  | .a4 => (210, 297)

/-- `TemplateConfig` from `TemplateDefinition.ts`. -/
structure TemplateConfig where
  pageSize : PageSize
  cellsPerRow : ℕ
  rowsPerPage : ℕ
  dpi : ℚ
deriving DecidableEq

/-- `MARGINS_MM` (top, bottom, left, right). -/
def MARGINS_MM : ℚ × ℚ × ℚ × ℚ := (25, 20, 15, 15)

def MARKER_SIZE_MM : ℚ := 8
def MARKER_OFFSET_MM : ℚ := 2

/-- `mmToPixels(mm, dpi) = Math.round((mm / 25.4) * dpi)`. -/
def mmToPixels (mm dpi : ℚ) : ℤ := jsRound (mm / (254/10) * dpi)

/-- The subset of `TemplateCoordinates` the claims use. -/
structure TemplateCoordinates where
  pageWidth : ℤ
  pageHeight : ℤ
  marginLeft : ℤ
  marginTop : ℤ
  marginRight : ℤ
  marginBottom : ℤ
  /-- side length, in pixels, of the fiducial squares used to place marker centers -/
  markerSize : ℤ
  markerOffset : ℤ
  markerTopLeft : ℚ × ℚ
  markerTopRight : ℚ × ℚ
  markerBottomLeft : ℚ × ℚ
  markerBottomRight : ℚ × ℚ
  cellWidth : ℚ
  cellHeight : ℚ
deriving DecidableEq

/-- `getTemplateCoordinates` (the fields relevant to the claims). -/
def getTemplateCoordinates (config : TemplateConfig) : TemplateCoordinates :=
  let pageMm := pageSizeMm config.pageSize
  let pageWidth := mmToPixels pageMm.1 config.dpi
  let pageHeight := mmToPixels pageMm.2 config.dpi
  let mTop := mmToPixels MARGINS_MM.1 config.dpi
  let mBottom := mmToPixels MARGINS_MM.2.1 config.dpi
  let mLeft := mmToPixels MARGINS_MM.2.2.1 config.dpi
  let mRight := mmToPixels MARGINS_MM.2.2.2 config.dpi
  let contentWidth : ℚ := (pageWidth : ℚ) - mLeft - mRight
  let contentHeight : ℚ := (pageHeight : ℚ) - mTop - mBottom
  let markerSize := mmToPixels MARKER_SIZE_MM config.dpi
  let markerOffset := mmToPixels MARKER_OFFSET_MM config.dpi
  let markerHalfSize : ℚ := (markerSize : ℚ) / 2
  { pageWidth := pageWidth
    pageHeight := pageHeight
    marginLeft := mLeft
    marginTop := mTop
    marginRight := mRight
    marginBottom := mBottom
    markerSize := markerSize
    markerOffset := markerOffset
    markerTopLeft :=
      ((mLeft : ℚ) - markerOffset - markerHalfSize, (mTop : ℚ) - markerOffset - markerHalfSize)
    markerTopRight :=
      ((pageWidth : ℚ) - mRight + markerOffset + markerHalfSize,
       (mTop : ℚ) - markerOffset - markerHalfSize)
    markerBottomLeft :=
      ((mLeft : ℚ) - markerOffset - markerHalfSize,
       (pageHeight : ℚ) - mBottom + markerOffset + markerHalfSize)
    markerBottomRight :=
      ((pageWidth : ℚ) - mRight + markerOffset + markerHalfSize,
       (pageHeight : ℚ) - mBottom + markerOffset + markerHalfSize)
    cellWidth := contentWidth / config.cellsPerRow
    cellHeight := contentHeight / config.rowsPerPage }

/-- `DEFAULT_TEMPLATE_CONFIG`: letter page, 8×10 grid, 150 dpi. -/
def DEFAULT_TEMPLATE_CONFIG : TemplateConfig :=
  { pageSize := .letter, cellsPerRow := 8, rowsPerPage := 10, dpi := 150 }

/-! ## Blank template renderer (`BlankTemplateRenderer.ts`) -/

/-- Side length of the marker squares drawn by `drawMarkers`:
`Math.round(coords.pageWidth * 0.01)` (≈1% of the page width). -/
def blankTemplateDrawnMarkerSize (config : TemplateConfig) : ℤ :=
  jsRound (((getTemplateCoordinates config).pageWidth : ℚ) * (1/100))

/-! ## Baseline normalization (`templateNormalize` in the vectorizer) -/

/-- Glyph path bounds inside the writing area (cell pixels). -/
structure PathBounds where
  x : ℚ
  y : ℚ
  width : ℚ
  height : ℚ
deriving DecidableEq

/-- `TemplateGuides`: guide-line y positions in writing-area pixels. -/
structure TemplateGuides where
  baseline : ℚ
  capHeight : ℚ
  xHeight : ℚ
  descender : ℚ
  writingAreaHeight : ℚ
deriving DecidableEq

def FONT_BASELINE : ℚ := 0
def FONT_CAP_HEIGHT : ℚ := 700
def LEFT_SIDE_BEARING : ℚ := 10
def RIGHT_SIDE_BEARING : ℚ := 10

/-- The advance-width computation of `templateNormalize`.  The path-string
transformation it also performs does not influence the advance width and is
not needed by the claims about it.  An empty path or degenerate bounds short
circuit to `0`, exactly as in the source. -/
def templateNormalizeAdvanceWidth (svgPath : String) (pathBounds : PathBounds)
    (guides : TemplateGuides) : ℤ :=
  if svgPath = "" ∨ pathBounds.width = 0 ∨ pathBounds.height = 0 then 0
  else
    let templateCapToBaseline := guides.baseline - guides.capHeight
    let fontCapToBaseline := FONT_CAP_HEIGHT - FONT_BASELINE
    let scale := fontCapToBaseline / templateCapToBaseline
    let glyphWidthInFontUnits := pathBounds.width * scale
    jsRound (LEFT_SIDE_BEARING + glyphWidthInFontUnits + RIGHT_SIDE_BEARING)

/-! ## Claim theorems: C3 and C6 -/

/-- **C3.** For a non-empty vectorized cell (positive bounds) and guides with
`baseline > capHeight`, `templateNormalize` returns
`advanceWidth = round(leftBearing + width·scale + rightBearing)` with both
bearings 10 and `scale = (FONT_CAP_HEIGHT − FONT_BASELINE)/(baseline − capHeight)`;
equivalently `advanceWidth = round(width·scale) + 2·leftBearing`, hence
`advanceWidth ≥ 2·leftBearing`. -/
theorem C3_advance_width (svgPath : String) (pathBounds : PathBounds)
    (guides : TemplateGuides) (hpath : svgPath ≠ "")
    (hw : 0 < pathBounds.width) (hh : 0 < pathBounds.height)
    (hg : guides.capHeight < guides.baseline) :
    templateNormalizeAdvanceWidth svgPath pathBounds guides
      = jsRound (LEFT_SIDE_BEARING
          + pathBounds.width * ((FONT_CAP_HEIGHT - FONT_BASELINE)
              / (guides.baseline - guides.capHeight))
          + RIGHT_SIDE_BEARING)
    ∧ templateNormalizeAdvanceWidth svgPath pathBounds guides
      = jsRound (pathBounds.width * ((FONT_CAP_HEIGHT - FONT_BASELINE)
          / (guides.baseline - guides.capHeight))) + 20
    ∧ 20 ≤ templateNormalizeAdvanceWidth svgPath pathBounds guides := by
  have hcond : ¬(svgPath = "" ∨ pathBounds.width = 0 ∨ pathBounds.height = 0) := by
    push_neg
    exact ⟨hpath, ne_of_gt hw, ne_of_gt hh⟩
  have hdef : templateNormalizeAdvanceWidth svgPath pathBounds guides
      = jsRound (LEFT_SIDE_BEARING
          + pathBounds.width * ((FONT_CAP_HEIGHT - FONT_BASELINE)
              / (guides.baseline - guides.capHeight))
          + RIGHT_SIDE_BEARING) := by
    unfold templateNormalizeAdvanceWidth
    rw [if_neg hcond]
  have hscale : 0 < (FONT_CAP_HEIGHT - FONT_BASELINE) / (guides.baseline - guides.capHeight) := by
    apply div_pos
    · norm_num [FONT_CAP_HEIGHT, FONT_BASELINE]
    · linarith
  have hsplit : LEFT_SIDE_BEARING
        + pathBounds.width * ((FONT_CAP_HEIGHT - FONT_BASELINE)
            / (guides.baseline - guides.capHeight))
        + RIGHT_SIDE_BEARING
      = pathBounds.width * ((FONT_CAP_HEIGHT - FONT_BASELINE)
            / (guides.baseline - guides.capHeight)) + ((20 : ℤ) : ℚ) := by
    norm_num [LEFT_SIDE_BEARING, RIGHT_SIDE_BEARING]
    ring
  have heq2 : templateNormalizeAdvanceWidth svgPath pathBounds guides
      = jsRound (pathBounds.width * ((FONT_CAP_HEIGHT - FONT_BASELINE)
          / (guides.baseline - guides.capHeight))) + 20 := by
    rw [hdef, hsplit, jsRound_add_int]
  refine ⟨hdef, heq2, ?_⟩
  have hnn : 0 ≤ jsRound (pathBounds.width * ((FONT_CAP_HEIGHT - FONT_BASELINE)
      / (guides.baseline - guides.capHeight))) :=
    jsRound_nonneg (le_of_lt (mul_pos hw hscale))
  omega

/-- Witness for C3: a 100-pixel-wide glyph with cap-to-baseline distance 100
gets scale 7 and advance width 720 = round(700) + 20 ≥ 20. -/
theorem C3_advance_width_witness :
    templateNormalizeAdvanceWidth "p" ⟨0, 0, 100, 80⟩ ⟨150, 50, 90, 170, 200⟩
      = jsRound (LEFT_SIDE_BEARING
          + (100 : ℚ) * ((FONT_CAP_HEIGHT - FONT_BASELINE) / ((150 : ℚ) - 50))
          + RIGHT_SIDE_BEARING)
    ∧ templateNormalizeAdvanceWidth "p" ⟨0, 0, 100, 80⟩ ⟨150, 50, 90, 170, 200⟩
      = jsRound ((100 : ℚ) * ((FONT_CAP_HEIGHT - FONT_BASELINE) / ((150 : ℚ) - 50))) + 20
    ∧ 20 ≤ templateNormalizeAdvanceWidth "p" ⟨0, 0, 100, 80⟩ ⟨150, 50, 90, 170, 200⟩ :=
  C3_advance_width "p" ⟨0, 0, 100, 80⟩ ⟨150, 50, 90, 170, 200⟩
    (by simp) (by norm_num) (by norm_num) (by norm_num)

/-- **C6.** At the default configuration (letter, 150 dpi) the blank-template
renderer draws marker squares of side `round(0.01·pageWidth) = 13` pixels,
while `getTemplateCoordinates` places marker centers using
`markerSize = mmToPixels(8 mm, 150 dpi) = 47` pixels: the dimensions differ,
contradicting both the specification and the renderer's stated requirement to
match the printed template. -/
theorem C6_marker_size_mismatch :
    blankTemplateDrawnMarkerSize DEFAULT_TEMPLATE_CONFIG = 13
    ∧ (getTemplateCoordinates DEFAULT_TEMPLATE_CONFIG).markerSize = 47
    ∧ blankTemplateDrawnMarkerSize DEFAULT_TEMPLATE_CONFIG
        ≠ (getTemplateCoordinates DEFAULT_TEMPLATE_CONFIG).markerSize := by
  refine ⟨?_, ?_, ?_⟩ <;>
    norm_num [blankTemplateDrawnMarkerSize, getTemplateCoordinates, mmToPixels,
      jsRound, DEFAULT_TEMPLATE_CONFIG, pageSizeMm, MARKER_SIZE_MM, MARGINS_MM]

/-! ## Path converter (`PathConverter.ts`)

Absolute SVG path commands as produced by `parseSVG` + `makeAbsolute` on the
vectorizer's output (the pipeline emits only `M`/`L`/`C`/`Q`/`Z`; `H`/`V` are
rewritten to `L` upstream by `transformPathWithFunction`). -/

inductive PathCommand where
  | M (x y : ℚ)
  | L (x y : ℚ)
  | C (x1 y1 x2 y2 x y : ℚ)
  | Q (x1 y1 x y : ℚ)
  | Z
deriving DecidableEq

namespace PathCommand

/-- The command's endpoint `(cmd.x, cmd.y)`, when defined. -/
def endpoint : PathCommand → Option (ℚ × ℚ)
  | .M x y => some (x, y)
  | .L x y => some (x, y)
  | .C _ _ _ _ x y => some (x, y)
  | .Q _ _ x y => some (x, y)
  | .Z => none

/-- `cmd.code === 'M'`. -/
def isM : PathCommand → Bool
  | .M _ _ => true
  | _ => false

/-- `cmd.code === 'Z'` (or `'z'`). -/
def isZ : PathCommand → Bool
  | .Z => true
  | _ => false

/-- A drawing segment (`L`, `C` or `Q`): neither `M` nor `Z`. -/
def isSeg : PathCommand → Bool
  | .L _ _ => true
  | .C _ _ _ _ _ _ => true
  | .Q _ _ _ _ => true
  | _ => false

end PathCommand

/-- `extractPointsFromCommands`: the endpoints of all commands that have one. -/
def extractPointsFromCommands (commands : List PathCommand) : List (ℚ × ℚ) :=
  commands.filterMap PathCommand.endpoint

/-- One shoelace term `xᵢ·yⱼ − xⱼ·yᵢ` for consecutive points `i`, `j`. -/
def shoelaceTerm (p q : ℚ × ℚ) : ℚ := p.1 * q.2 - q.1 * p.2

/-- The cyclic shoelace sum `Σᵢ (xᵢ·yᵢ₊₁ − xᵢ₊₁·yᵢ)` (indices mod length). -/
def cycShoelaceSum (points : List (ℚ × ℚ)) : ℚ :=
  (List.zipWith shoelaceTerm points (points.rotate 1)).sum

/-- `calculateSignedArea`: half the cyclic shoelace sum; `0` for fewer than
three points. -/
def calculateSignedArea (points : List (ℚ × ℚ)) : ℚ :=
  if points.length < 3 then 0 else cycShoelaceSum points / 2

/-- The command the descending loop of `reverseContour` emits for one source
command, given the pair `(cmd, prevCmd)` and the fallback first-`M` point:
`L`/`C`/`Q` become the corresponding reversed command ending at the previous
command's endpoint; `M` and `Z` are skipped. -/
def reverseEmit (fp : ℚ × ℚ) (pc : PathCommand × PathCommand) : Option PathCommand :=
  let prevPoint := pc.2.endpoint.getD fp
  match pc.1 with
  | .L _ _ => some (.L prevPoint.1 prevPoint.2)
  | .C x1 y1 x2 y2 _ _ => some (.C x2 y2 x1 y1 prevPoint.1 prevPoint.2)
  | .Q x1 y1 _ _ => some (.Q x1 y1 prevPoint.1 prevPoint.2)
  | _ => none

/-- `reverseContour`: reverse a contour's winding direction.  Empty input and
input without an `M` are returned unchanged; otherwise the result starts with
`M` at the contour's last point, retraces the commands backwards (each ending
at its predecessor's endpoint, with swapped control points for `C`), and ends
with `Z`. -/
def reverseContour (commands : List PathCommand) : List PathCommand :=
  if commands.isEmpty then commands
  else
    match commands.find? PathCommand.isM with
    | none => commands
    | some firstM =>
      let fp := firstM.endpoint.getD (0, 0)
      let lastPoint := commands.foldl (fun acc c => c.endpoint.getD acc) fp
      let revBody := ((commands.zip (firstM :: commands)).filterMap (reverseEmit fp)).reverse
      PathCommand.M lastPoint.1 lastPoint.2 :: revBody ++ [PathCommand.Z]

/-- `splitIntoContours`: split a command list at each `M` (starting a new
contour) and after each `Z` (closing one); empty pieces are dropped. -/
def splitIntoContours (commands : List PathCommand) : List (List PathCommand) :=
  let step := fun (acc : List (List PathCommand) × List PathCommand) (cmd : PathCommand) =>
    let (contours, current) :=
      if cmd.isM && !acc.2.isEmpty then (acc.1 ++ [acc.2], []) else acc
    let current := current ++ [cmd]
    if cmd.isZ then (contours ++ [current], []) else (contours, current)
  let (contours, current) := commands.foldl step ([], [])
  let contours := if !current.isEmpty then contours ++ [current] else contours
  contours.filter (fun c => !c.isEmpty)

/-- Absolute signed area of a contour (over its command endpoints). -/
def contourAbsArea (contour : List PathCommand) : ℚ :=
  |calculateSignedArea (extractPointsFromCommands contour)|

/-- One step of the largest-contour fold: update `(largestIdx, largestAbsArea)`
when contour `i` has a strictly larger absolute area. -/
def largestStep (contours : List (List PathCommand)) (best : ℕ × ℚ) (i : ℕ) : ℕ × ℚ :=
  if best.2 < contourAbsArea (contours.getD i []) then (i, contourAbsArea (contours.getD i []))
  else best

/-- The fold of `normalizedSvgToOpentypePath` selecting the contour with the
largest absolute signed area: returns `(largestIdx, largestAbsArea)`,
starting from `(0, 0)` and updating on strictly larger areas. -/
def largestContour (contours : List (List PathCommand)) : ℕ × ℚ :=
  (List.range contours.length).foldl (largestStep contours) (0, 0)

/-- The `contoursToEmit` selection for one outline path: with holes present
and more than one contour, only the largest contour; otherwise all. -/
def outlineContoursToEmit (hasHoles : Bool) (contours : List (List PathCommand)) :
    List (List PathCommand) :=
  if hasHoles && decide (1 < contours.length) then
    [contours.getD (largestContour contours).1 []]
  else contours

/-- Outline winding fix: outlines need CCW (positive area); reverse when the
signed area is negative. -/
def fixOutlineWinding (contour : List PathCommand) : List PathCommand :=
  if calculateSignedArea (extractPointsFromCommands contour) < 0 then reverseContour contour
  else contour

/-- Hole winding fix: holes need CW (negative area); reverse when the signed
area is positive. -/
def fixHoleWinding (contour : List PathCommand) : List PathCommand :=
  if 0 < calculateSignedArea (extractPointsFromCommands contour) then reverseContour contour
  else contour

/-- Processing of one outline path string in the JSON branch of
`normalizedSvgToOpentypePath`: split into contours, select (largest if holes
are present and the path has several subpaths), fix winding.  The result is
the list of contours this path contributes to the output `opentype.Path`. -/
def processOutlinePath (hasHoles : Bool) (commands : List PathCommand) :
    List (List PathCommand) :=
  if (splitIntoContours commands).isEmpty then []
  else (outlineContoursToEmit hasHoles (splitIntoContours commands)).map fixOutlineWinding

/-- Processing of one hole path string: split into contours and fix winding. -/
def processHolePath (commands : List PathCommand) : List (List PathCommand) :=
  (splitIntoContours commands).map fixHoleWinding

/-- The contours emitted from the `outlines` list of the JSON input. -/
def emittedOutlineContours (outlinePaths holePaths : List (List PathCommand)) :
    List (List PathCommand) :=
  (outlinePaths.map (processOutlinePath (!holePaths.isEmpty))).flatten

/-- The contours emitted from the `holes` list of the JSON input. -/
def emittedHoleContours (holePaths : List (List PathCommand)) :
    List (List PathCommand) :=
  (holePaths.map processHolePath).flatten

/-- JSON-format branch of `normalizedSvgToOpentypePath`: the ordered list of
contours emitted to the output path (outlines first, then holes).  The input
is the parsed `{outlines, holes}` JSON envelope; `emitContourToPath`'s
per-coordinate integer rounding happens downstream of the winding fix and is
not part of this function. -/
def normalizedSvgToOpentypeContours (outlinePaths holePaths : List (List PathCommand)) :
    List (List PathCommand) :=
  emittedOutlineContours outlinePaths holePaths ++ emittedHoleContours holePaths

/-- Well-formed contour: an `M`, then drawing segments, then optionally `Z`.
`splitIntoContours` produces exactly such contours from any well-formed SVG
path (every subpath introduced by `M`, closed by at most one trailing `Z`). -/
def WfContour (contour : List PathCommand) : Prop :=
  ∃ x y body tail, contour = PathCommand.M x y :: (body ++ tail)
    ∧ (∀ c ∈ body, c.isSeg = true)
    ∧ (tail = [] ∨ tail = [PathCommand.Z])

/-! ### Shoelace algebra: reversing a point list negates the signed area -/

theorem shoelaceTerm_swap (p q : ℚ × ℚ) : shoelaceTerm p q = -shoelaceTerm q p := by
  simp only [shoelaceTerm]; ring

theorem shoelaceTerm_self (p : ℚ × ℚ) : shoelaceTerm p p = 0 := by
  simp only [shoelaceTerm]; ring

/-- Shoelace sum over consecutive (non-cyclic) pairs. -/
def linShoelaceSum (l : List (ℚ × ℚ)) : ℚ := (List.zipWith shoelaceTerm l l.tail).sum

/-- Last element of `a :: l`, phrased over the tail `l` with fallback `a`. -/
def lastP (a : ℚ × ℚ) (l : List (ℚ × ℚ)) : ℚ × ℚ := l.getLast?.getD a

theorem lastP_nil (a : ℚ × ℚ) : lastP a [] = a := rfl

theorem lastP_cons (a c : ℚ × ℚ) (t : List (ℚ × ℚ)) : lastP a (c :: t) = lastP c t := by
  cases t with
  | nil => rfl
  | cons d t' =>
    obtain ⟨v, hv⟩ : ∃ v, (d :: t').getLast? = some v := by
      cases hh : (d :: t').getLast? with
      | none => exact absurd hh (by simp)
      | some v => exact ⟨v, rfl⟩
    simp only [lastP, List.getLast?_cons_cons, hv, Option.getD_some]

theorem getLast?_eq_lastP (a : ℚ × ℚ) (t : List (ℚ × ℚ)) :
    (a :: t).getLast? = some (lastP a t) := by
  induction t generalizing a with
  | nil => rfl
  | cons c t' ih => rw [List.getLast?_cons_cons, ih, lastP_cons]

theorem linShoelaceSum_cons_cons (a b : ℚ × ℚ) (t : List (ℚ × ℚ)) :
    linShoelaceSum (a :: b :: t) = shoelaceTerm a b + linShoelaceSum (b :: t) := by
  simp [linShoelaceSum]

theorem linShoelaceSum_concat (t : List (ℚ × ℚ)) (a b : ℚ × ℚ) :
    linShoelaceSum (a :: (t ++ [b]))
      = linShoelaceSum (a :: t) + shoelaceTerm (lastP a t) b := by
  induction t generalizing a with
  | nil => simp [linShoelaceSum, lastP_nil, shoelaceTerm]
  | cons c t' ih =>
      rw [List.cons_append, linShoelaceSum_cons_cons, ih c, linShoelaceSum_cons_cons,
        lastP_cons]
      ring

theorem linShoelaceSum_reverse (l : List (ℚ × ℚ)) :
    linShoelaceSum l.reverse = -linShoelaceSum l := by
  induction l with
  | nil => simp [linShoelaceSum]
  | cons a t ih =>
    cases t with
    | nil => simp [linShoelaceSum]
    | cons h t'' =>
      obtain ⟨r, r', hr⟩ : ∃ r r', (h :: t'').reverse = r :: r' := by
        cases hrev : (h :: t'').reverse with
        | nil => exact absurd (congrArg List.length hrev) (by simp)
        | cons r r' => exact ⟨r, r', rfl⟩
      have hlast : lastP r r' = h := by
        have h1 : (h :: t'').reverse.getLast? = some h := by
          rw [List.getLast?_reverse]; rfl
        rw [hr, getLast?_eq_lastP] at h1
        exact Option.some_injective _ h1
      rw [List.reverse_cons, hr, List.cons_append, linShoelaceSum_concat, hlast, ← hr,
        ih, linShoelaceSum_cons_cons, shoelaceTerm_swap h a]
      ring

theorem cycShoelaceSum_cons (a : ℚ × ℚ) (t : List (ℚ × ℚ)) :
    cycShoelaceSum (a :: t) = linShoelaceSum (a :: t) + shoelaceTerm (lastP a t) a := by
  have hrot : (a :: t).rotate 1 = t ++ [a] := by
    rw [show (1 : ℕ) = 0 + 1 from rfl, List.rotate_cons_succ, List.rotate_zero]
  have hzip : ∀ (t : List (ℚ × ℚ)) (a b : ℚ × ℚ),
      List.zipWith shoelaceTerm (a :: t) (t ++ [b])
        = List.zipWith shoelaceTerm (a :: t) t ++ [shoelaceTerm (lastP a t) b] := by
    intro t
    induction t with
    | nil => intro a b; simp [lastP_nil]
    | cons c t' ih =>
        intro a b
        rw [List.cons_append, List.zipWith_cons_cons, ih c b, lastP_cons,
          List.zipWith_cons_cons, List.cons_append]
  unfold cycShoelaceSum linShoelaceSum
  rw [hrot, hzip, List.sum_append]
  simp

theorem cycShoelaceSum_reverse (l : List (ℚ × ℚ)) :
    cycShoelaceSum l.reverse = -cycShoelaceSum l := by
  cases l with
  | nil => simp [cycShoelaceSum]
  | cons a t =>
    cases t with
    | nil =>
      simp [cycShoelaceSum, List.rotate, shoelaceTerm_self]
    | cons h t'' =>
      obtain ⟨r, r', hr⟩ : ∃ r r', (h :: t'').reverse = r :: r' := by
        cases hrev : (h :: t'').reverse with
        | nil => exact absurd (congrArg List.length hrev) (by simp)
        | cons r r' => exact ⟨r, r', rfl⟩
      have hlast : lastP r r' = h := by
        have h1 : (h :: t'').reverse.getLast? = some h := by
          rw [List.getLast?_reverse]; rfl
        rw [hr, getLast?_eq_lastP] at h1
        exact Option.some_injective _ h1
      have hhead : r = lastP h t'' := by
        have h1 : (h :: t'').reverse.head? = some (lastP h t'') := by
          rw [List.head?_reverse, getLast?_eq_lastP]
        rw [hr] at h1
        simp only [List.head?_cons] at h1
        exact Option.some_injective _ h1
      have hrw : (a :: h :: t'').reverse = r :: (r' ++ [a]) := by
        rw [List.reverse_cons, hr, List.cons_append]
      rw [hrw, cycShoelaceSum_cons, linShoelaceSum_concat, hlast,
        cycShoelaceSum_cons, linShoelaceSum_cons_cons, lastP_cons]
      have h2 : lastP r (r' ++ [a]) = a := by
        simp [lastP, List.getLast?_concat]
      have h3 : linShoelaceSum (r :: r') = -linShoelaceSum (h :: t'') := by
        rw [← hr, linShoelaceSum_reverse]
      rw [h2, h3, hhead, shoelaceTerm_swap h a,
        shoelaceTerm_swap a (lastP h t'')]
      ring

theorem calculateSignedArea_reverse (l : List (ℚ × ℚ)) :
    calculateSignedArea l.reverse = -calculateSignedArea l := by
  unfold calculateSignedArea
  rw [List.length_reverse]
  split
  · simp
  · rw [cycShoelaceSum_reverse]; ring

/-! ### `reverseContour` reverses the extracted point list -/

theorem endpoint_of_isSeg {c : PathCommand} (h : c.isSeg = true) :
    ∃ p, c.endpoint = some p := by
  cases c with
  | M x y => simp [PathCommand.isSeg] at h
  | L x y => exact ⟨(x, y), rfl⟩
  | C x1 y1 x2 y2 x y => exact ⟨(x, y), rfl⟩
  | Q x1 y1 x y => exact ⟨(x, y), rfl⟩
  | Z => simp [PathCommand.isSeg] at h

theorem reverseEmit_of_isSeg (fp : ℚ × ℚ) {b prev : PathCommand} {p : ℚ × ℚ}
    (hb : b.isSeg = true) (hp : prev.endpoint = some p) :
    ∃ e, reverseEmit fp (b, prev) = some e ∧ e.endpoint = some p := by
  cases b with
  | M x y => simp [PathCommand.isSeg] at hb
  | L x y => exact ⟨.L p.1 p.2, by simp [reverseEmit, hp], rfl⟩
  | C x1 y1 x2 y2 x y => exact ⟨.C x2 y2 x1 y1 p.1 p.2, by simp [reverseEmit, hp], rfl⟩
  | Q x1 y1 x y => exact ⟨.Q x1 y1 p.1 p.2, by simp [reverseEmit, hp], rfl⟩
  | Z => simp [PathCommand.isSeg] at hb

theorem extractPoints_cons_some {c : PathCommand} {p : ℚ × ℚ} (h : c.endpoint = some p)
    (l : List PathCommand) :
    extractPointsFromCommands (c :: l) = p :: extractPointsFromCommands l := by
  simp [extractPointsFromCommands, List.filterMap_cons, h]

theorem extractPoints_cons_none {c : PathCommand} (h : c.endpoint = none)
    (l : List PathCommand) :
    extractPointsFromCommands (c :: l) = extractPointsFromCommands l := by
  simp [extractPointsFromCommands, List.filterMap_cons, h]

/-- The descending loop of `reverseContour`, restricted to the pairs after the
initial `M`, emits commands whose endpoints are the predecessors' endpoints:
the extracted points of its output are `p :: points(body)` without the final
point. -/
theorem extract_revEmit (fp : ℚ × ℚ) (body : List PathCommand) :
    ∀ (tail : List PathCommand) (prev : PathCommand) (p : ℚ × ℚ),
      (∀ c ∈ body, c.isSeg = true) → (tail = [] ∨ tail = [PathCommand.Z]) →
      prev.endpoint = some p →
      extractPointsFromCommands
          (((body ++ tail).zip (prev :: (body ++ tail))).filterMap (reverseEmit fp))
        = (p :: extractPointsFromCommands body).dropLast := by
  induction body with
  | nil =>
    intro tail prev p _ ht _
    rcases ht with rfl | rfl
    · simp [extractPointsFromCommands]
    · simp [extractPointsFromCommands, List.zip_cons_cons, List.filterMap_cons, reverseEmit]
  | cons b bs ih =>
    intro tail prev p hb ht hp
    have hbseg : b.isSeg = true := hb b (List.mem_cons_self b bs)
    obtain ⟨q, hq⟩ := endpoint_of_isSeg hbseg
    obtain ⟨e, he, hep⟩ := reverseEmit_of_isSeg fp hbseg hp
    have hrest : ∀ c ∈ bs, c.isSeg = true := fun c hc => hb c (List.mem_cons_of_mem b hc)
    have hzip : ((b :: bs) ++ tail).zip (prev :: ((b :: bs) ++ tail))
        = (b, prev) :: ((bs ++ tail).zip (b :: (bs ++ tail))) := by
      simp [List.zip_cons_cons]
    rw [hzip, List.filterMap_cons, he, extractPoints_cons_some hep,
      ih tail b q hrest ht hq, extractPoints_cons_some hq]
    rfl

/-- The `lastPoint` fold of `reverseContour` computes the last extracted
point (or the initial fallback when there is none). -/
theorem foldl_endpoint_getD (L : List PathCommand) :
    ∀ init : ℚ × ℚ,
      L.foldl (fun acc c => c.endpoint.getD acc) init
        = lastP init (extractPointsFromCommands L) := by
  induction L with
  | nil => intro init; rfl
  | cons c cs ih =>
    intro init
    rw [List.foldl_cons]
    cases hc : c.endpoint with
    | none =>
      simp only [Option.getD_none]
      rw [extractPoints_cons_none hc]
      exact ih init
    | some q =>
      simp only [Option.getD_some]
      rw [extractPoints_cons_some hc, lastP_cons]
      exact ih q

theorem lastP_cons_dropLast_reverse (l : List (ℚ × ℚ)) :
    ∀ a : ℚ × ℚ, lastP a l :: ((a :: l).dropLast).reverse = (a :: l).reverse := by
  induction l with
  | nil => intro a; rfl
  | cons c t ih =>
    intro a
    rw [lastP_cons, show (a :: c :: t).dropLast = a :: (c :: t).dropLast from rfl,
      List.reverse_cons, List.reverse_cons, ← ih c, List.cons_append]

/-- Evaluation of `reverseContour` on a contour starting with `M`. -/
theorem reverseContour_cons_M (x y : ℚ) (rest : List PathCommand) :
    reverseContour (PathCommand.M x y :: rest)
      = PathCommand.M
          ((PathCommand.M x y :: rest).foldl (fun acc c => c.endpoint.getD acc) (x, y)).1
          ((PathCommand.M x y :: rest).foldl (fun acc c => c.endpoint.getD acc) (x, y)).2
        :: (((PathCommand.M x y :: rest).zip
              (PathCommand.M x y :: PathCommand.M x y :: rest)).filterMap
                (reverseEmit (x, y))).reverse
        ++ [PathCommand.Z] := by
  unfold reverseContour
  rw [List.find?_cons_of_pos _ (show PathCommand.isM (.M x y) = true from rfl)]
  simp [PathCommand.endpoint]

theorem extract_reverseContour {c : List PathCommand} (hwf : WfContour c) :
    extractPointsFromCommands (reverseContour c)
      = (extractPointsFromCommands c).reverse := by
  obtain ⟨x, y, body, tail, rfl, hbody, htail⟩ := hwf
  have hMend : (PathCommand.M x y).endpoint = some (x, y) := rfl
  have htailpts : extractPointsFromCommands tail = [] := by
    rcases htail with rfl | rfl <;> rfl
  have hbodytail : extractPointsFromCommands (body ++ tail) = extractPointsFromCommands body := by
    simp only [extractPointsFromCommands, List.filterMap_append]
    rw [show tail.filterMap PathCommand.endpoint = extractPointsFromCommands tail from rfl,
      htailpts, List.append_nil]
  have hextract : extractPointsFromCommands (PathCommand.M x y :: (body ++ tail))
      = (x, y) :: extractPointsFromCommands body := by
    rw [extractPoints_cons_some hMend, hbodytail]
  have hfold : List.foldl (fun acc c => c.endpoint.getD acc) (x, y)
      (PathCommand.M x y :: (body ++ tail))
      = lastP (x, y) (extractPointsFromCommands body) := by
    rw [foldl_endpoint_getD, hextract, lastP_cons]
  have hzipsplit : ((PathCommand.M x y :: (body ++ tail)).zip
        (PathCommand.M x y :: PathCommand.M x y :: (body ++ tail)))
      = (PathCommand.M x y, PathCommand.M x y)
          :: ((body ++ tail).zip (PathCommand.M x y :: (body ++ tail))) := by
    simp [List.zip_cons_cons]
  have hfirstEmit : reverseEmit (x, y) (PathCommand.M x y, PathCommand.M x y) = none := rfl
  have hbodyrev := extract_revEmit (x, y) body tail (.M x y) (x, y) hbody htail hMend
  have hfm : extractPointsFromCommands
        ((((PathCommand.M x y :: (body ++ tail)).zip
            (PathCommand.M x y :: PathCommand.M x y :: (body ++ tail))).filterMap
              (reverseEmit (x, y))).reverse ++ [PathCommand.Z])
      = (((x, y) :: extractPointsFromCommands body).dropLast).reverse := by
    simp only [extractPointsFromCommands] at hbodyrev ⊢
    rw [List.filterMap_append,
      show List.filterMap PathCommand.endpoint [PathCommand.Z] = [] from rfl,
      List.append_nil, List.filterMap_reverse, hzipsplit, List.filterMap_cons, hfirstEmit,
      hbodyrev]
  rw [reverseContour_cons_M, List.cons_append, hfold,
    extractPoints_cons_some
      (show (PathCommand.M (lastP (x, y) (extractPointsFromCommands body)).1
          (lastP (x, y) (extractPointsFromCommands body)).2).endpoint
        = some (lastP (x, y) (extractPointsFromCommands body)) from rfl),
    hfm, hextract]
  exact lastP_cons_dropLast_reverse _ _

/-- Reversing a well-formed contour negates its signed area. -/
theorem calculateSignedArea_reverseContour {c : List PathCommand} (hwf : WfContour c) :
    calculateSignedArea (extractPointsFromCommands (reverseContour c))
      = -calculateSignedArea (extractPointsFromCommands c) := by
  rw [extract_reverseContour hwf, calculateSignedArea_reverse]

/-- After the outline winding fix, the signed area is `|original|`, hence
non-negative (strictly positive exactly when the original is non-zero). -/
theorem fixOutlineWinding_area {c : List PathCommand} (hwf : WfContour c) :
    calculateSignedArea (extractPointsFromCommands (fixOutlineWinding c))
      = |calculateSignedArea (extractPointsFromCommands c)| := by
  unfold fixOutlineWinding
  split
  · rename_i h
    rw [calculateSignedArea_reverseContour hwf, abs_of_neg h]
  · rename_i h
    rw [abs_of_nonneg (not_lt.mp h)]

/-- After the hole winding fix, the signed area is `-|original|`, hence
non-positive (strictly negative exactly when the original is non-zero). -/
theorem fixHoleWinding_area {c : List PathCommand} (hwf : WfContour c) :
    calculateSignedArea (extractPointsFromCommands (fixHoleWinding c))
      = -|calculateSignedArea (extractPointsFromCommands c)| := by
  unfold fixHoleWinding
  split
  · rename_i h
    rw [calculateSignedArea_reverseContour hwf, abs_of_pos h]
  · rename_i h
    rw [abs_of_nonpos (not_lt.mp h)]
    ring

/-! ### The largest-contour fold -/

theorem largestStep_le (contours : List (List PathCommand)) (st : ℕ × ℚ) (i : ℕ) :
    st.2 ≤ (largestStep contours st i).2 := by
  unfold largestStep
  split
  · rename_i h; exact le_of_lt h
  · exact le_refl _

theorem foldl_largestStep_mono (contours : List (List PathCommand)) (idxs : List ℕ) :
    ∀ st : ℕ × ℚ, st.2 ≤ (idxs.foldl (largestStep contours) st).2 := by
  induction idxs with
  | nil => intro st; exact le_refl _
  | cons i rest ih =>
    intro st
    exact le_trans (largestStep_le contours st i) (ih (largestStep contours st i))

theorem foldl_largestStep_inv (contours : List (List PathCommand)) (idxs : List ℕ) :
    ∀ st : ℕ × ℚ, st.2 ≤ contourAbsArea (contours.getD st.1 []) →
      (idxs.foldl (largestStep contours) st).2
        ≤ contourAbsArea (contours.getD (idxs.foldl (largestStep contours) st).1 []) := by
  induction idxs with
  | nil => intro st h; exact h
  | cons i rest ih =>
    intro st h
    apply ih
    unfold largestStep
    split
    · exact le_refl _
    · exact h

theorem foldl_largestStep_ub (contours : List (List PathCommand)) (idxs : List ℕ) :
    ∀ (st : ℕ × ℚ) (i : ℕ), i ∈ idxs →
      contourAbsArea (contours.getD i []) ≤ (idxs.foldl (largestStep contours) st).2 := by
  induction idxs with
  | nil => intro st i hi; exact absurd hi (List.not_mem_nil i)
  | cons j rest ih =>
    intro st i hi
    rcases List.mem_cons.mp hi with rfl | hi'
    · have hstep : contourAbsArea (contours.getD i []) ≤ (largestStep contours st i).2 := by
        unfold largestStep
        split
        · exact le_refl _
        · rename_i h; exact not_lt.mp h
      exact le_trans hstep (foldl_largestStep_mono contours rest _)
    · exact ih _ i hi'

theorem foldl_largestStep_idx (contours : List (List PathCommand)) (idxs : List ℕ) :
    ∀ st : ℕ × ℚ, (idxs.foldl (largestStep contours) st).1 = st.1
      ∨ (idxs.foldl (largestStep contours) st).1 ∈ idxs := by
  induction idxs with
  | nil => intro st; exact Or.inl rfl
  | cons j rest ih =>
    intro st
    rw [List.foldl_cons]
    rcases ih (largestStep contours st j) with h | h
    · rw [h]
      unfold largestStep
      split
      · exact Or.inr (List.mem_cons_self _ _)
      · exact Or.inl rfl
    · exact Or.inr (List.mem_cons_of_mem _ h)

theorem largestContour_lt {contours : List (List PathCommand)} (h : contours ≠ []) :
    (largestContour contours).1 < contours.length := by
  rcases foldl_largestStep_idx contours (List.range contours.length) (0, 0) with h1 | h1
  · rw [largestContour, h1]
    exact List.length_pos.mpr h
  · exact List.mem_range.mp h1

theorem largestContour_mem {contours : List (List PathCommand)} (h : contours ≠ []) :
    contours.getD (largestContour contours).1 [] ∈ contours := by
  have hlt := largestContour_lt h
  rw [List.getD_eq_getElem contours [] hlt]
  exact List.getElem_mem hlt

theorem largestContour_max (contours : List (List PathCommand)) (c : List PathCommand)
    (hc : c ∈ contours) :
    contourAbsArea c ≤ contourAbsArea (contours.getD (largestContour contours).1 []) := by
  obtain ⟨j, hj, rfl⟩ := List.getElem_of_mem hc
  have h1 : contours.getD j [] = contours[j] := List.getD_eq_getElem contours [] hj
  calc contourAbsArea contours[j]
      ≤ (largestContour contours).2 := by
        rw [← h1, largestContour]
        exact foldl_largestStep_ub contours _ _ j (List.mem_range.mpr hj)
    _ ≤ contourAbsArea (contours.getD (largestContour contours).1 []) := by
        rw [largestContour]
        exact foldl_largestStep_inv contours _ _ (abs_nonneg _)

/-! ### Emission membership -/

theorem mem_processOutlinePath {hasHoles : Bool} {cmds : List PathCommand}
    {c : List PathCommand} (hc : c ∈ processOutlinePath hasHoles cmds) :
    ∃ c₀ ∈ splitIntoContours cmds, c = fixOutlineWinding c₀ := by
  unfold processOutlinePath at hc
  split at hc
  · exact absurd hc (List.not_mem_nil c)
  · rename_i hne
    obtain ⟨c₀, hc₀, rfl⟩ := List.mem_map.mp hc
    have hnil : splitIntoContours cmds ≠ [] := by
      intro h
      rw [h] at hne
      exact hne rfl
    refine ⟨c₀, ?_, rfl⟩
    unfold outlineContoursToEmit at hc₀
    split at hc₀
    · rw [List.mem_singleton.mp hc₀]
      exact largestContour_mem hnil
    · exact hc₀

theorem mem_processHolePath {cmds : List PathCommand} {c : List PathCommand}
    (hc : c ∈ processHolePath cmds) :
    ∃ c₀ ∈ splitIntoContours cmds, c = fixHoleWinding c₀ := by
  obtain ⟨c₀, hc₀, rfl⟩ := List.mem_map.mp hc
  exact ⟨c₀, hc₀, rfl⟩

/-! ### Claim theorems: C1 (amended) and C2 -/

/-- **C1 (amended).** In the JSON branch of `normalizedSvgToOpentypePath`,
with every subpath well-formed, every contour emitted from the `outlines`
list has non-negative signed area and every contour emitted from the `holes`
list has non-positive signed area (strictly positive/negative whenever the
contour's shoelace sum is non-zero; a degenerate zero-area contour is emitted
unchanged, which is what forbids the strict version of the claim). -/
theorem C1_winding_correction (outlinePaths holePaths : List (List PathCommand))
    (hwf : ∀ cmds ∈ outlinePaths ++ holePaths, ∀ c ∈ splitIntoContours cmds, WfContour c) :
    (∀ c ∈ emittedOutlineContours outlinePaths holePaths,
        0 ≤ calculateSignedArea (extractPointsFromCommands c))
    ∧ ∀ c ∈ emittedHoleContours holePaths,
        calculateSignedArea (extractPointsFromCommands c) ≤ 0 := by
  constructor
  · intro c hc
    unfold emittedOutlineContours at hc
    obtain ⟨l, hl, hcl⟩ := List.mem_flatten.mp hc
    obtain ⟨cmds, hcmds, rfl⟩ := List.mem_map.mp hl
    obtain ⟨c₀, hc₀, rfl⟩ := mem_processOutlinePath hcl
    have hwf₀ := hwf cmds (List.mem_append_left _ hcmds) c₀ hc₀
    rw [fixOutlineWinding_area hwf₀]
    exact abs_nonneg _
  · intro c hc
    unfold emittedHoleContours at hc
    obtain ⟨l, hl, hcl⟩ := List.mem_flatten.mp hc
    obtain ⟨cmds, hcmds, rfl⟩ := List.mem_map.mp hl
    obtain ⟨c₀, hc₀, rfl⟩ := mem_processHolePath hcl
    have hwf₀ := hwf cmds (List.mem_append_right _ hcmds) c₀ hc₀
    rw [fixHoleWinding_area hwf₀]
    exact neg_nonpos.mpr (abs_nonneg _)

/-- Witness for C1: a triangle outline and a triangle hole. -/
theorem C1_winding_correction_witness :
    (∀ c ∈ emittedOutlineContours
        [[PathCommand.M 0 0, PathCommand.L 1 0, PathCommand.L 1 1, PathCommand.Z]]
        [[PathCommand.M 0 0, PathCommand.L 0 1, PathCommand.L 1 1, PathCommand.Z]],
        0 ≤ calculateSignedArea (extractPointsFromCommands c))
    ∧ ∀ c ∈ emittedHoleContours
        [[PathCommand.M 0 0, PathCommand.L 0 1, PathCommand.L 1 1, PathCommand.Z]],
        calculateSignedArea (extractPointsFromCommands c) ≤ 0 :=
  C1_winding_correction _ _ (by
    intro cmds hcmds c hc
    simp only [List.cons_append, List.nil_append, List.mem_cons, List.not_mem_nil,
      or_false] at hcmds
    rcases hcmds with rfl | rfl
    · rw [show splitIntoContours
          [PathCommand.M 0 0, PathCommand.L 1 0, PathCommand.L 1 1, PathCommand.Z]
          = [[PathCommand.M 0 0, PathCommand.L 1 0, PathCommand.L 1 1, PathCommand.Z]]
          from rfl] at hc
      rw [List.mem_singleton.mp hc]
      refine ⟨0, 0, [PathCommand.L 1 0, PathCommand.L 1 1], [PathCommand.Z], rfl, ?_, Or.inr rfl⟩
      intro c hc
      rcases List.mem_cons.mp hc with rfl | hc'
      · rfl
      · rw [List.mem_singleton.mp hc']; rfl
    · rw [show splitIntoContours
          [PathCommand.M 0 0, PathCommand.L 0 1, PathCommand.L 1 1, PathCommand.Z]
          = [[PathCommand.M 0 0, PathCommand.L 0 1, PathCommand.L 1 1, PathCommand.Z]]
          from rfl] at hc
      rw [List.mem_singleton.mp hc]
      refine ⟨0, 0, [PathCommand.L 0 1, PathCommand.L 1 1], [PathCommand.Z], rfl, ?_, Or.inr rfl⟩
      intro c hc
      rcases List.mem_cons.mp hc with rfl | hc'
      · rfl
      · rw [List.mem_singleton.mp hc']; rfl)

/-- **C1 (counterexample to the claim as stated).** A degenerate two-point
outline contour (reachable: Douglas-Peucker can collapse a subpath to two
points) is emitted unchanged with signed area `0`, which is not positive. -/
theorem C1_counterexample :
    ¬ ∀ c ∈ emittedOutlineContours
        [[PathCommand.M 0 0, PathCommand.L 1 1, PathCommand.Z]] [],
        0 < calculateSignedArea (extractPointsFromCommands c) := by
  intro hall
  have harea : calculateSignedArea (extractPointsFromCommands
      [PathCommand.M 0 0, PathCommand.L 1 1, PathCommand.Z]) = 0 := rfl
  have h1 : fixOutlineWinding [PathCommand.M 0 0, PathCommand.L 1 1, PathCommand.Z]
      = [PathCommand.M 0 0, PathCommand.L 1 1, PathCommand.Z] := by
    unfold fixOutlineWinding
    rw [harea, if_neg (lt_irrefl (0 : ℚ))]
  have h2 : emittedOutlineContours [[PathCommand.M 0 0, PathCommand.L 1 1, PathCommand.Z]] []
      = [fixOutlineWinding [PathCommand.M 0 0, PathCommand.L 1 1, PathCommand.Z]] := rfl
  have hmem : [PathCommand.M 0 0, PathCommand.L 1 1, PathCommand.Z]
      ∈ emittedOutlineContours [[PathCommand.M 0 0, PathCommand.L 1 1, PathCommand.Z]] [] := by
    rw [h2, h1]
    exact List.mem_singleton.mpr rfl
  have := hall _ hmem
  rw [harea] at this
  exact lt_irrefl 0 this

/-- **C2.** Subpath selection inside an outline path: with at least one hole
and more than one subpath, exactly the subpath of largest absolute signed
area is emitted (it is a member of the split and maximal in absolute area)
and the rest are discarded; with no holes, every subpath is emitted. -/
theorem C2_subpath_selection (hasHoles : Bool) (cmds : List PathCommand) :
    (hasHoles = true → 1 < (splitIntoContours cmds).length →
        outlineContoursToEmit hasHoles (splitIntoContours cmds)
          = [(splitIntoContours cmds).getD (largestContour (splitIntoContours cmds)).1 []]
        ∧ ((splitIntoContours cmds).getD (largestContour (splitIntoContours cmds)).1 [])
            ∈ splitIntoContours cmds
        ∧ ∀ c ∈ splitIntoContours cmds,
            contourAbsArea c ≤ contourAbsArea
              ((splitIntoContours cmds).getD (largestContour (splitIntoContours cmds)).1 []))
    ∧ (hasHoles = false →
        outlineContoursToEmit hasHoles (splitIntoContours cmds) = splitIntoContours cmds
        ∧ processOutlinePath hasHoles cmds
            = (splitIntoContours cmds).map fixOutlineWinding) := by
  constructor
  · intro hh hlen
    have hne : splitIntoContours cmds ≠ [] := by
      intro h
      rw [h] at hlen
      exact absurd hlen (by norm_num)
    refine ⟨?_, largestContour_mem hne, fun c hc => largestContour_max _ c hc⟩
    unfold outlineContoursToEmit
    rw [hh]
    simp [hlen]
  · intro hh
    constructor
    · unfold outlineContoursToEmit
      rw [hh]
      simp
    · unfold processOutlinePath
      split
      · rename_i hemp
        rw [List.isEmpty_iff.mp hemp]
        rfl
      · unfold outlineContoursToEmit
        rw [hh]
        simp

/-- Witness for C2: two triangle subpaths; with holes present only the larger
one survives, without holes both are kept. -/
theorem C2_subpath_selection_witness :
    (outlineContoursToEmit true (splitIntoContours
        [PathCommand.M 0 0, PathCommand.L 3 0, PathCommand.L 3 3, PathCommand.Z,
         PathCommand.M 10 10, PathCommand.L 11 10, PathCommand.L 11 11, PathCommand.Z])
      = [(splitIntoContours
            [PathCommand.M 0 0, PathCommand.L 3 0, PathCommand.L 3 3, PathCommand.Z,
             PathCommand.M 10 10, PathCommand.L 11 10, PathCommand.L 11 11, PathCommand.Z]).getD
          (largestContour (splitIntoContours
            [PathCommand.M 0 0, PathCommand.L 3 0, PathCommand.L 3 3, PathCommand.Z,
             PathCommand.M 10 10, PathCommand.L 11 10, PathCommand.L 11 11, PathCommand.Z])).1 []])
    ∧ outlineContoursToEmit false (splitIntoContours
        [PathCommand.M 0 0, PathCommand.L 3 0, PathCommand.L 3 3, PathCommand.Z,
         PathCommand.M 10 10, PathCommand.L 11 10, PathCommand.L 11 11, PathCommand.Z])
      = splitIntoContours
          [PathCommand.M 0 0, PathCommand.L 3 0, PathCommand.L 3 3, PathCommand.Z,
           PathCommand.M 10 10, PathCommand.L 11 10, PathCommand.L 11 11, PathCommand.Z] :=
  ⟨((C2_subpath_selection true
      [PathCommand.M 0 0, PathCommand.L 3 0, PathCommand.L 3 3, PathCommand.Z,
       PathCommand.M 10 10, PathCommand.L 11 10, PathCommand.L 11 11, PathCommand.Z]).1
      rfl (by
        rw [show splitIntoContours
            [PathCommand.M 0 0, PathCommand.L 3 0, PathCommand.L 3 3, PathCommand.Z,
             PathCommand.M 10 10, PathCommand.L 11 10, PathCommand.L 11 11, PathCommand.Z]
          = [[PathCommand.M 0 0, PathCommand.L 3 0, PathCommand.L 3 3, PathCommand.Z],
             [PathCommand.M 10 10, PathCommand.L 11 10, PathCommand.L 11 11, PathCommand.Z]]
          from rfl]
        norm_num)).1,
   (C2_subpath_selection false
      [PathCommand.M 0 0, PathCommand.L 3 0, PathCommand.L 3 3, PathCommand.Z,
       PathCommand.M 10 10, PathCommand.L 11 10, PathCommand.L 11 11, PathCommand.Z]).2
      rfl |>.1⟩

/-! ## Douglas-Peucker simplification (`simplifyPath` in the vectorizer)

The source compares true Euclidean distances (`|cross| / √lenSq`) against the
running maximum and against `ε`; within one call all distances share the same
chord, so the embedding carries the squared distances, and compares `ε` via
`ε² < d²` (equivalent for `ε ≥ 0`; for `ε < 0` the comparison `dist > ε` is
always true since distances are non-negative). -/

/-- `perpendicularDistance` squared: `cross² / lenSq`, or the squared point
distance to `lineStart` when the chord is degenerate. -/
def perpDistSq (p lineStart lineEnd : ℚ × ℚ) : ℚ :=
  if (lineEnd.1 - lineStart.1) * (lineEnd.1 - lineStart.1)
      + (lineEnd.2 - lineStart.2) * (lineEnd.2 - lineStart.2) = 0 then
    (p.1 - lineStart.1) ^ 2 + (p.2 - lineStart.2) ^ 2
  else
    ((lineEnd.2 - lineStart.2) * p.1 - (lineEnd.1 - lineStart.1) * p.2
        + lineEnd.1 * lineStart.2 - lineEnd.2 * lineStart.1) ^ 2
      / ((lineEnd.1 - lineStart.1) * (lineEnd.1 - lineStart.1)
          + (lineEnd.2 - lineStart.2) * (lineEnd.2 - lineStart.2))

/-- Squared distance of the point at index `i` from the chord (first point to
last point) of `points`. -/
def dpDistSq (points : List (ℚ × ℚ)) (i : ℕ) : ℚ :=
  perpDistSq (points.getD i (0, 0)) (points.head?.getD (0, 0)) (points.getLast?.getD (0, 0))

/-- One step of the interior scan of `simplifyPath`: update
`(maxDist, maxIndex)` on a strictly larger distance. -/
def dpStep (points : List (ℚ × ℚ)) (acc : ℚ × ℕ) (i : ℕ) : ℚ × ℕ :=
  if acc.1 < dpDistSq points i then (dpDistSq points i, i) else acc

/-- The interior scan `for (i = 1; i < points.length - 1; i++)` finding the
maximum (squared) distance and its first index, starting from `(0, 0)`. -/
def findMaxDist (points : List (ℚ × ℚ)) : ℚ × ℕ :=
  (List.range' 1 (points.length - 2)).foldl (dpStep points) (0, 0)

/-- `maxDist > epsilon`, on the squared distance. -/
def distSqGtB (d2 ε : ℚ) : Bool :=
  if ε < 0 then true else decide (ε ^ 2 < d2)

/-- `simplifyPath` with explicit fuel.  The source recursion is well-founded
only when the split index is interior, which holds whenever `ε ≥ 0`; for
`ε < 0` a degenerate split at index 0 makes the JS recurse on the whole list
and blow the stack, which the fuel models (exhausted fuel returns the input).
With `ε ≥ 0`, fuel `≥ points.length` never runs out. -/
def simplifyPathF : ℕ → List (ℚ × ℚ) → ℚ → List (ℚ × ℚ)
  | 0, points, _ => points
  | fuel + 1, points, epsilon =>
    if points.length ≤ 2 then points
    else if distSqGtB (findMaxDist points).1 epsilon then
      (simplifyPathF fuel (points.take ((findMaxDist points).2 + 1)) epsilon).dropLast
        ++ simplifyPathF fuel (points.drop (findMaxDist points).2) epsilon
    else
      [points.head?.getD (0, 0), points.getLast?.getD (0, 0)]

/-- `simplifyPath(points, epsilon)`: Douglas-Peucker simplification. -/
def simplifyPath (points : List (ℚ × ℚ)) (epsilon : ℚ) : List (ℚ × ℚ) :=
  simplifyPathF points.length points epsilon

/-! ### Facts about the interior scan of `simplifyPath` -/

theorem dpStep_fst_le (points : List (ℚ × ℚ)) (st : ℚ × ℕ) (i : ℕ) :
    st.1 ≤ (dpStep points st i).1 := by
  unfold dpStep
  split
  · rename_i h; exact le_of_lt h
  · exact le_refl _

theorem dpStep_dist_le (points : List (ℚ × ℚ)) (st : ℚ × ℕ) (i : ℕ) :
    dpDistSq points i ≤ (dpStep points st i).1 := by
  unfold dpStep
  split
  · exact le_refl _
  · rename_i h; exact not_lt.mp h

theorem dpStep_snd_le (points : List (ℚ × ℚ)) (st : ℚ × ℕ) (i : ℕ)
    (h : st.2 ≤ i) : (dpStep points st i).2 ≤ i := by
  unfold dpStep
  split
  · exact le_refl _
  · exact h

theorem foldl_dpStep_mono (points : List (ℚ × ℚ)) (idxs : List ℕ) :
    ∀ st : ℚ × ℕ, st.1 ≤ (idxs.foldl (dpStep points) st).1 := by
  induction idxs with
  | nil => intro st; exact le_refl _
  | cons j rest ih =>
    intro st
    exact le_trans (dpStep_fst_le points st j) (ih (dpStep points st j))

theorem foldl_dpStep_ub (points : List (ℚ × ℚ)) (idxs : List ℕ) :
    ∀ (st : ℚ × ℕ) (i : ℕ), i ∈ idxs →
      dpDistSq points i ≤ (idxs.foldl (dpStep points) st).1 := by
  induction idxs with
  | nil => intro st i hi; exact absurd hi (List.not_mem_nil i)
  | cons j rest ih =>
    intro st i hi
    rw [List.foldl_cons]
    rcases List.mem_cons.mp hi with rfl | hi'
    · exact le_trans (dpStep_dist_le points st i) (foldl_dpStep_mono points rest _)
    · exact ih _ i hi'

theorem foldl_dpStep_stay (points : List (ℚ × ℚ)) (idxs : List ℕ) :
    ∀ st : ℚ × ℕ, (∀ i ∈ idxs, dpDistSq points i ≤ st.1) →
      idxs.foldl (dpStep points) st = st := by
  induction idxs with
  | nil => intro st _; rfl
  | cons j rest ih =>
    intro st h
    rw [List.foldl_cons]
    have hj : dpDistSq points j ≤ st.1 := h j (List.mem_cons_self _ _)
    have hstep : dpStep points st j = st := by
      unfold dpStep
      rw [if_neg (not_lt.mpr hj)]
    rw [hstep]
    exact ih st (fun i hi => h i (List.mem_cons_of_mem _ hi))

theorem foldl_dpStep_eq_or (points : List (ℚ × ℚ)) (idxs : List ℕ) :
    ∀ st : ℚ × ℕ, idxs.foldl (dpStep points) st = st
      ∨ (st.1 < (idxs.foldl (dpStep points) st).1
          ∧ (idxs.foldl (dpStep points) st).2 ∈ idxs
          ∧ (idxs.foldl (dpStep points) st).1
              = dpDistSq points (idxs.foldl (dpStep points) st).2) := by
  induction idxs with
  | nil => intro st; exact Or.inl rfl
  | cons j rest ih =>
    intro st
    rw [List.foldl_cons]
    rcases ih (dpStep points st j) with h | ⟨h1, h2, h3⟩
    · rw [h]
      unfold dpStep
      split
      · rename_i hlt
        exact Or.inr ⟨hlt, List.mem_cons_self _ _, rfl⟩
      · exact Or.inl rfl
    · exact Or.inr ⟨lt_of_le_of_lt (dpStep_fst_le points st j) h1,
        List.mem_cons_of_mem _ h2, h3⟩

theorem foldl_dpStep_strict_before (points : List (ℚ × ℚ)) :
    ∀ (n a : ℕ) (st : ℚ × ℕ), st.2 < a →
      ∀ i, a ≤ i → i < ((List.range' a n).foldl (dpStep points) st).2 →
        dpDistSq points i < ((List.range' a n).foldl (dpStep points) st).1 := by
  intro n
  induction n with
  | zero =>
    intro a st hst i hai hir
    simp only [List.range'_zero, List.foldl_nil] at hir
    omega
  | succ n ih =>
    intro a st hst i hai hir
    rw [List.range'_succ, List.foldl_cons] at hir ⊢
    have hstep2 : (dpStep points st a).2 ≤ a := dpStep_snd_le points st a (le_of_lt hst)
    rcases Nat.eq_or_lt_of_le hai with heq | hlt
    · subst heq
      rcases foldl_dpStep_eq_or points (List.range' (a + 1) n) (dpStep points st a)
        with he | ⟨h1, _, _⟩
      · rw [he] at hir
        omega
      · exact lt_of_le_of_lt (dpStep_dist_le points st a) h1
    · exact ih (a + 1) (dpStep points st a) (by omega) i hlt hir

theorem foldl_dpStep_max (points : List (ℚ × ℚ)) :
    ∀ (n a : ℕ) (st : ℚ × ℕ) (k : ℕ) (D : ℚ),
      a ≤ k → k < a + n → dpDistSq points k = D → st.1 < D →
      (∀ i, a ≤ i → i < k → dpDistSq points i < D) →
      (∀ i, a ≤ i → i < a + n → dpDistSq points i ≤ D) →
      (List.range' a n).foldl (dpStep points) st = (D, k) := by
  intro n
  induction n with
  | zero => intro a st k D hak hka _ _ _ _; omega
  | succ n ih =>
    intro a st k D hak hka hD hst hstrict hub
    rw [List.range'_succ, List.foldl_cons]
    rcases Nat.eq_or_lt_of_le hak with rfl | hlt
    · have hstep : dpStep points st a = (D, a) := by
        unfold dpStep
        rw [hD, if_pos hst]
      rw [hstep]
      exact foldl_dpStep_stay points _ (D, a) (fun i hi => by
        have hmem := List.mem_range'_1.mp hi
        exact hub i (by omega) (by omega))
    · have hstep1 : (dpStep points st a).1 < D := by
        unfold dpStep
        split
        · exact hstrict a (le_refl a) hlt
        · exact hst
      exact ih (a + 1) (dpStep points st a) k D hlt (by omega) hD hstep1
        (fun i hi => hstrict i (by omega))
        (fun i hi1 hi2 => hub i (by omega) (by omega))

/-! ### List helpers for the Douglas-Peucker proofs -/

theorem sublist_dropLast {α : Type} {s t : List α} (h : List.Sublist s t) :
    List.Sublist s.dropLast t.dropLast := by
  induction h with
  | slnil => exact List.Sublist.refl _
  | @cons l₁ l₂ a h ih =>
    cases l₂ with
    | nil =>
      rw [List.sublist_nil.mp h]
      exact List.nil_sublist _
    | cons b t₂ =>
      rw [show (a :: b :: t₂).dropLast = a :: (b :: t₂).dropLast from rfl]
      exact ih.cons a
  | @cons₂ l₁ l₂ a h ih =>
    cases l₁ with
    | nil => exact List.nil_sublist _
    | cons b t₁ =>
      have hl₂ : l₂ ≠ [] := by
        intro hh
        subst hh
        have := List.sublist_nil.mp h
        simp at this
      obtain ⟨c, t₂, rfl⟩ := List.exists_cons_of_ne_nil hl₂
      rw [show (a :: b :: t₁).dropLast = a :: (b :: t₁).dropLast from rfl,
        show (a :: c :: t₂).dropLast = a :: (c :: t₂).dropLast from rfl]
      exact ih.cons₂ a

theorem head?_dropLast {α : Type} {l : List α} (h : 2 ≤ l.length) :
    l.dropLast.head? = l.head? := by
  match l, h with
  | a :: b :: t, _ => rfl

theorem dropLast_append_of_getLast? {α : Type} {l : List α} {a : α}
    (h : l.getLast? = some a) : l.dropLast ++ [a] = l := by
  cases l with
  | nil => simp at h
  | cons b t =>
    have hne : b :: t ≠ [] := by simp
    rw [List.getLast?_eq_getLast _ hne] at h
    rw [← Option.some_injective _ h]
    exact List.dropLast_append_getLast hne

theorem simplifyPathF_short {fuel : ℕ} {pts : List (ℚ × ℚ)} {ε : ℚ}
    (h : pts.length ≤ 2) : simplifyPathF fuel pts ε = pts := by
  cases fuel with
  | zero => rfl
  | succ f =>
    simp only [simplifyPathF]
    rw [if_pos h]

theorem head?_append_left {α : Type} {l₁ : List α} (l₂ : List α) (h : l₁ ≠ []) :
    (l₁ ++ l₂).head? = l₁.head? := by
  cases l₁ with
  | nil => exact absurd rfl h
  | cons a t => rfl

/-- A successful interior scan picks an interior, first-maximal split index. -/
theorem findMaxDist_spec {pts : List (ℚ × ℚ)} {ε : ℚ} (hε : 0 ≤ ε)
    (hlen : 3 ≤ pts.length) (hcond : distSqGtB (findMaxDist pts).1 ε = true) :
    1 ≤ (findMaxDist pts).2 ∧ (findMaxDist pts).2 ≤ pts.length - 2
    ∧ 0 < (findMaxDist pts).1
    ∧ (findMaxDist pts).1 = dpDistSq pts (findMaxDist pts).2
    ∧ (∀ i, 1 ≤ i → i < (findMaxDist pts).2 → dpDistSq pts i < (findMaxDist pts).1)
    ∧ (∀ i, 1 ≤ i → i ≤ pts.length - 2 → dpDistSq pts i ≤ (findMaxDist pts).1) := by
  have hsq : ε ^ 2 < (findMaxDist pts).1 := by
    unfold distSqGtB at hcond
    rw [if_neg (not_lt.mpr hε)] at hcond
    exact of_decide_eq_true hcond
  have hpos : 0 < (findMaxDist pts).1 := lt_of_le_of_lt (sq_nonneg ε) hsq
  have hstrict : ∀ i, 1 ≤ i → i < (findMaxDist pts).2 →
      dpDistSq pts i < (findMaxDist pts).1 :=
    fun i h1 h2 =>
      foldl_dpStep_strict_before pts (pts.length - 2) 1 (0, 0) (by norm_num) i h1 h2
  have hub : ∀ i, 1 ≤ i → i ≤ pts.length - 2 → dpDistSq pts i ≤ (findMaxDist pts).1 :=
    fun i h1 h2 =>
      foldl_dpStep_ub pts (List.range' 1 (pts.length - 2)) (0, 0) i
        (List.mem_range'_1.mpr ⟨h1, by omega⟩)
  rcases foldl_dpStep_eq_or pts (List.range' 1 (pts.length - 2)) (0, 0) with he | ⟨_, h2, h3⟩
  · exact absurd (show (0 : ℚ) < 0 by
      have := hpos
      rw [show findMaxDist pts = (0, 0) from he] at this
      exact this) (lt_irrefl 0)
  · have h2' : (findMaxDist pts).2 ∈ List.range' 1 (pts.length - 2) := h2
    obtain ⟨hm1, hm2⟩ := List.mem_range'_1.mp h2'
    exact ⟨hm1, by omega, hpos, h3, hstrict, hub⟩

/-- Structure of the Douglas-Peucker result (for `ε ≥ 0` and enough fuel):
it preserves the first and last point, is a sublist of the input, keeps at
least two points of any input with two or more, and does not depend on the
fuel. -/
theorem simplifyPathF_spec :
    ∀ (n : ℕ) (pts : List (ℚ × ℚ)) (ε : ℚ) (fuel : ℕ),
      0 ≤ ε → pts.length ≤ n → pts.length ≤ fuel →
      (simplifyPathF fuel pts ε).head? = pts.head?
      ∧ (simplifyPathF fuel pts ε).getLast? = pts.getLast?
      ∧ List.Sublist (simplifyPathF fuel pts ε) pts
      ∧ (2 ≤ pts.length → 2 ≤ (simplifyPathF fuel pts ε).length)
      ∧ ∀ fuel₂, pts.length ≤ fuel₂ → simplifyPathF fuel₂ pts ε = simplifyPathF fuel pts ε := by
  intro n
  induction n with
  | zero =>
    intro pts ε fuel hε hn _
    rw [simplifyPathF_short (by omega)]
    exact ⟨rfl, rfl, List.Sublist.refl _, fun h => h,
      fun fuel₂ _ => simplifyPathF_short (by omega)⟩
  | succ n ih =>
    intro pts ε fuel hε hn hf
    by_cases hlen2 : pts.length ≤ 2
    · rw [simplifyPathF_short hlen2]
      exact ⟨rfl, rfl, List.Sublist.refl _, fun h => h,
        fun fuel₂ _ => simplifyPathF_short hlen2⟩
    · push_neg at hlen2
      obtain ⟨f, rfl⟩ : ∃ f, fuel = f + 1 := ⟨fuel - 1, by omega⟩
      by_cases hcond : distSqGtB (findMaxDist pts).1 ε = true
      · -- split branch
        obtain ⟨hm1, hm2, _, _, _, _⟩ := findMaxDist_spec hε (by omega) hcond
        have heq : simplifyPathF (f + 1) pts ε
            = (simplifyPathF f (pts.take ((findMaxDist pts).2 + 1)) ε).dropLast
              ++ simplifyPathF f (pts.drop (findMaxDist pts).2) ε := by
          simp only [simplifyPathF]
          rw [if_neg (by omega), if_pos hcond]
        have hLlen : (pts.take ((findMaxDist pts).2 + 1)).length = (findMaxDist pts).2 + 1 := by
          rw [List.length_take]
          omega
        have hRlen : (pts.drop (findMaxDist pts).2).length = pts.length - (findMaxDist pts).2 :=
          List.length_drop _ _
        obtain ⟨hLhead, hLlast, hLsub, hLlen2, hLfuel⟩ :=
          ih (pts.take ((findMaxDist pts).2 + 1)) ε f hε (by omega) (by omega)
        obtain ⟨hRhead, hRlast, hRsub, hRlen2, hRfuel⟩ :=
          ih (pts.drop (findMaxDist pts).2) ε f hε (by omega) (by omega)
        have hSL2 : 2 ≤ (simplifyPathF f (pts.take ((findMaxDist pts).2 + 1)) ε).length :=
          hLlen2 (by omega)
        have hSR2 : 2 ≤ (simplifyPathF f (pts.drop (findMaxDist pts).2) ε).length :=
          hRlen2 (by omega)
        have hSRne : simplifyPathF f (pts.drop (findMaxDist pts).2) ε ≠ [] := by
          intro h
          rw [h] at hSR2
          simp at hSR2
        have hSLdne : (simplifyPathF f (pts.take ((findMaxDist pts).2 + 1)) ε).dropLast ≠ [] := by
          intro h
          have := congrArg List.length h
          rw [List.length_dropLast] at this
          simp at this
          omega
        have htake_head : (pts.take ((findMaxDist pts).2 + 1)).head? = pts.head? := by
          cases pts with
          | nil => simp at hlen2
          | cons a t => rfl
        have hdrop_ne : pts.drop (findMaxDist pts).2 ≠ [] := by
          intro h
          have := congrArg List.length h
          rw [hRlen] at this
          simp at this
          omega
        have hdrop_last : (pts.drop (findMaxDist pts).2).getLast? = pts.getLast? := by
          conv_rhs => rw [← List.take_append_drop (findMaxDist pts).2 pts]
          rw [List.getLast?_append_of_ne_nil _ hdrop_ne]
        have htake_dropLast : (pts.take ((findMaxDist pts).2 + 1)).dropLast
            = pts.take (findMaxDist pts).2 := by
          rw [List.take_succ,
            List.getElem?_eq_getElem (show (findMaxDist pts).2 < pts.length by omega)]
          exact List.dropLast_concat
        refine ⟨?_, ?_, ?_, ?_, ?_⟩
        · rw [heq, head?_append_left _ hSLdne, head?_dropLast hSL2, hLhead, htake_head]
        · rw [heq, List.getLast?_append_of_ne_nil _ hSRne, hRlast, hdrop_last]
        · rw [heq]
          have h1 := sublist_dropLast hLsub
          rw [htake_dropLast] at h1
          have h2 := List.Sublist.append h1 hRsub
          rw [List.take_append_drop] at h2
          exact h2
        · intro _
          rw [heq, List.length_append, List.length_dropLast]
          omega
        · intro fuel₂ hfuel₂
          obtain ⟨f₂, rfl⟩ : ∃ f₂, fuel₂ = f₂ + 1 := ⟨fuel₂ - 1, by omega⟩
          have heq₂ : simplifyPathF (f₂ + 1) pts ε
              = (simplifyPathF f₂ (pts.take ((findMaxDist pts).2 + 1)) ε).dropLast
                ++ simplifyPathF f₂ (pts.drop (findMaxDist pts).2) ε := by
            simp only [simplifyPathF]
            rw [if_neg (by omega), if_pos hcond]
          rw [heq, heq₂, hLfuel f₂ (by omega), hRfuel f₂ (by omega)]
      · -- chord branch: [first, last]
        have heq : simplifyPathF (f + 1) pts ε
            = [pts.head?.getD (0, 0), pts.getLast?.getD (0, 0)] := by
          simp only [simplifyPathF]
          rw [if_neg (by omega), if_neg hcond]
        have hne : pts ≠ [] := by
          intro h
          subst h
          simp at hlen2
        obtain ⟨v, t, rfl⟩ := List.exists_cons_of_ne_nil hne
        have htne : t ≠ [] := by
          intro h
          subst h
          simp at hlen2
        obtain ⟨w, hw⟩ : ∃ w, (v :: t).getLast? = some w :=
          ⟨(v :: t).getLast (by simp), List.getLast?_eq_getLast _ _⟩
        have hwt : w ∈ t := by
          have h1 : t.getLast? = some w := by
            rw [← hw, ← List.getLast?_append_of_ne_nil [v] htne]
            rfl
          have h2 := dropLast_append_of_getLast? h1
          rw [← h2]
          exact List.mem_append_right _ (List.mem_singleton.mpr rfl)
        refine ⟨?_, ?_, ?_, ?_, ?_⟩
        · rw [heq, hw]
          rfl
        · rw [heq, hw]
          rfl
        · rw [heq, hw]
          exact List.Sublist.cons₂ v (List.singleton_sublist.mpr hwt)
        · intro _
          rw [heq]
          simp
        · intro fuel₂ hfuel₂
          obtain ⟨f₂, rfl⟩ : ∃ f₂, fuel₂ = f₂ + 1 := ⟨fuel₂ - 1, by omega⟩
          have heq₂ : simplifyPathF (f₂ + 1) (v :: t) ε
              = [(v :: t).head?.getD (0, 0), (v :: t).getLast?.getD (0, 0)] := by
            simp only [simplifyPathF]
            rw [if_neg (by omega), if_neg hcond]
          rw [heq, heq₂]

/-! ### Idempotence of `simplifyPath` -/

theorem perpDistSq_lineStart (s e : ℚ × ℚ) : perpDistSq s s e = 0 := by
  unfold perpDistSq
  split
  · ring
  · rw [show (e.2 - s.2) * s.1 - (e.1 - s.1) * s.2 + e.1 * s.2 - e.2 * s.1 = 0 by ring]
    simp

theorem perpDistSq_lineEnd (s e : ℚ × ℚ) : perpDistSq e s e = 0 := by
  unfold perpDistSq
  split
  · rename_i h
    rw [show (e.1 - s.1) ^ 2 + (e.2 - s.2) ^ 2
        = (e.1 - s.1) * (e.1 - s.1) + (e.2 - s.2) * (e.2 - s.2) by ring, h]
  · rw [show (e.2 - s.2) * e.1 - (e.1 - s.1) * e.2 + e.1 * s.2 - e.2 * s.1 = 0 by ring]
    simp

theorem getD_zero_eq_head?_getD {α : Type} (l : List α) (d : α) :
    l.getD 0 d = l.head?.getD d := by
  cases l <;> rfl

theorem getLast?_getD_eq_getD {α : Type} {l : List α} (h : l ≠ []) (d : α) :
    l.getLast?.getD d = l.getD (l.length - 1) d := by
  rw [List.getLast?_eq_getLast _ h, Option.getD_some,
    List.getD_eq_getElem _ _ (by cases l with | nil => exact absurd rfl h | cons a t => simp),
    List.getLast_eq_getElem]

theorem getD_mem {α : Type} {l : List α} {i : ℕ} (h : i < l.length) (d : α) :
    l.getD i d ∈ l := by
  rw [List.getD_eq_getElem _ _ h]
  exact List.getElem_mem h

theorem take_succ_getLast? {pts : List (ℚ × ℚ)} {m : ℕ} (h : m < pts.length) :
    (pts.take (m + 1)).getLast? = some (pts.getD m (0, 0)) := by
  rw [List.take_succ, List.getElem?_eq_getElem h,
    show (some pts[m]).toList = [pts[m]] from rfl, List.getLast?_concat,
    List.getD_eq_getElem _ _ h]

theorem drop_head? {pts : List (ℚ × ℚ)} {m : ℕ} (h : m < pts.length) :
    (pts.drop m).head? = some (pts.getD m (0, 0)) := by
  rw [List.head?_drop, List.getElem?_eq_getElem h, List.getD_eq_getElem _ _ h]

theorem take_succ_dropLast {pts : List (ℚ × ℚ)} {m : ℕ} (h : m < pts.length) :
    (pts.take (m + 1)).dropLast = pts.take m := by
  rw [List.take_succ, List.getElem?_eq_getElem h,
    show (some pts[m]).toList = [pts[m]] from rfl]
  exact List.dropLast_concat

/-- Every point of `pts.take maxIndex` is strictly closer to the chord than
the maximal distance found by the scan. -/
theorem dp_value_lt {pts : List (ℚ × ℚ)} {ε : ℚ} (hε : 0 ≤ ε) (hlen : 3 ≤ pts.length)
    (hcond : distSqGtB (findMaxDist pts).1 ε = true) :
    ∀ v ∈ pts.take (findMaxDist pts).2,
      perpDistSq v (pts.head?.getD (0, 0)) (pts.getLast?.getD (0, 0))
        < (findMaxDist pts).1 := by
  obtain ⟨hm1, hm2, hpos, hmd, hstrict, _⟩ := findMaxDist_spec hε hlen hcond
  intro v hv
  obtain ⟨j, hj, hjv⟩ := List.getElem_of_mem hv
  rw [List.length_take] at hj
  have hjm : j < (findMaxDist pts).2 := lt_of_lt_of_le hj (min_le_left _ _)
  have hjlen : j < pts.length := by omega
  rw [List.getElem_take] at hjv
  rcases Nat.eq_zero_or_pos j with rfl | hjpos
  · rw [← hjv]
    have h0 : pts[0] = pts.head?.getD (0, 0) := by
      rw [← getD_zero_eq_head?_getD, List.getD_eq_getElem _ _ (by omega)]
    rw [h0, perpDistSq_lineStart]
    exact hpos
  · have hs := hstrict j hjpos hjm
    unfold dpDistSq at hs
    rw [List.getD_eq_getElem _ _ hjlen, hjv] at hs
    exact hs

/-- Every point of `pts.drop maxIndex` is within the maximal distance found
by the scan. -/
theorem dp_value_le {pts : List (ℚ × ℚ)} {ε : ℚ} (hε : 0 ≤ ε) (hlen : 3 ≤ pts.length)
    (hcond : distSqGtB (findMaxDist pts).1 ε = true) :
    ∀ v ∈ pts.drop (findMaxDist pts).2,
      perpDistSq v (pts.head?.getD (0, 0)) (pts.getLast?.getD (0, 0))
        ≤ (findMaxDist pts).1 := by
  obtain ⟨hm1, hm2, hpos, hmd, _, hub⟩ := findMaxDist_spec hε hlen hcond
  intro v hv
  obtain ⟨j, hj, hjv⟩ := List.getElem_of_mem hv
  rw [List.length_drop] at hj
  rw [List.getElem_drop] at hjv
  by_cases hlast : (findMaxDist pts).2 + j = pts.length - 1
  · rw [← hjv]
    have h1 : pts[(findMaxDist pts).2 + j] = pts.getLast?.getD (0, 0) := by
      rw [getLast?_getD_eq_getD (by intro hh; rw [hh] at hlen; simp at hlen),
        List.getD_eq_getElem _ _ (by omega)]
      congr 1
    rw [h1, perpDistSq_lineEnd]
    exact le_of_lt hpos
  · have hs := hub ((findMaxDist pts).2 + j) (by omega) (by omega)
    unfold dpDistSq at hs
    rw [List.getD_eq_getElem _ _ (by omega : (findMaxDist pts).2 + j < pts.length), hjv] at hs
    exact hs

/-- Idempotence of Douglas-Peucker (fuelled version, `ε ≥ 0`). -/
theorem simplifyPathF_idem :
    ∀ (n : ℕ) (pts : List (ℚ × ℚ)) (ε : ℚ) (f g : ℕ),
      0 ≤ ε → pts.length ≤ n → pts.length ≤ f →
      (simplifyPathF f pts ε).length ≤ g →
      simplifyPathF g (simplifyPathF f pts ε) ε = simplifyPathF f pts ε := by
  intro n
  induction n with
  | zero =>
    intro pts ε f g hε hn hf hg
    have h1 : simplifyPathF f pts ε = pts := simplifyPathF_short (by omega)
    rw [h1, simplifyPathF_short (by omega)]
  | succ n ih =>
    intro pts ε f g hε hn hf hg
    by_cases hlen2 : pts.length ≤ 2
    · have h1 : simplifyPathF f pts ε = pts := simplifyPathF_short hlen2
      rw [h1, simplifyPathF_short hlen2]
    · push_neg at hlen2
      obtain ⟨f', rfl⟩ : ∃ f', f = f' + 1 := ⟨f - 1, by omega⟩
      by_cases hcond : distSqGtB (findMaxDist pts).1 ε = true
      · -- split branch of the first run
        obtain ⟨hm1, hm2, hpos, hmd, hstrict, hub⟩ := findMaxDist_spec hε (by omega) hcond
        have heq : simplifyPathF (f' + 1) pts ε
            = (simplifyPathF f' (pts.take ((findMaxDist pts).2 + 1)) ε).dropLast
              ++ simplifyPathF f' (pts.drop (findMaxDist pts).2) ε := by
          simp only [simplifyPathF]
          rw [if_neg (by omega), if_pos hcond]
        have hLlen : (pts.take ((findMaxDist pts).2 + 1)).length
            = (findMaxDist pts).2 + 1 := by
          rw [List.length_take]
          omega
        have hRlen : (pts.drop (findMaxDist pts).2).length
            = pts.length - (findMaxDist pts).2 := List.length_drop _ _
        obtain ⟨hLhead, hLlast, hLsub, hLlen2, _⟩ :=
          simplifyPathF_spec n (pts.take ((findMaxDist pts).2 + 1)) ε f' hε
            (by omega) (by omega)
        obtain ⟨hRhead, hRlast, hRsub, hRlen2, _⟩ :=
          simplifyPathF_spec n (pts.drop (findMaxDist pts).2) ε f' hε
            (by omega) (by omega)
        obtain ⟨hShead, hSlast, _, _, _⟩ :=
          simplifyPathF_spec (n + 1) pts ε (f' + 1) hε hn hf
        have hval_lt := dp_value_lt hε (by omega) hcond
        have hval_le := dp_value_le hε (by omega) hcond
        set m := (findMaxDist pts).2 with hmdef
        set SL := simplifyPathF f' (pts.take (m + 1)) ε with hSLdef
        set SR := simplifyPathF f' (pts.drop m) ε with hSRdef
        rw [heq] at hShead hSlast hg ⊢
        have hSL2 : 2 ≤ SL.length := hLlen2 (by omega)
        have hSR2 : 2 ≤ SR.length := hRlen2 (by omega)
        have hSlen : (SL.dropLast ++ SR).length = SL.length - 1 + SR.length := by
          rw [List.length_append, List.length_dropLast]
        have hSRhead : SR.head? = some (pts.getD m (0, 0)) := by
          rw [hRhead, drop_head? (by omega)]
        obtain ⟨tl, hSReq⟩ : ∃ tl, SR = pts.getD m (0, 0) :: tl := by
          cases hSR : SR with
          | nil =>
            rw [hSR] at hSRhead
            simp at hSRhead
          | cons a tl =>
            rw [hSR] at hSRhead
            simp only [List.head?_cons, Option.some.injEq] at hSRhead
            exact ⟨tl, by rw [hSRhead]⟩
        have hSLlast : SL.getLast? = some (pts.getD m (0, 0)) := by
          rw [hLlast, take_succ_getLast? (by omega)]
        have hSLdecomp : SL.dropLast ++ [pts.getD m (0, 0)] = SL :=
          dropLast_append_of_getLast? hSLlast
        have hchord : ∀ i, dpDistSq (SL.dropLast ++ SR) i
            = perpDistSq ((SL.dropLast ++ SR).getD i (0, 0))
                (pts.head?.getD (0, 0)) (pts.getLast?.getD (0, 0)) := by
          intro i
          unfold dpDistSq
          rw [hShead, hSlast]
        have hkd : (SL.dropLast ++ SR).getD (SL.length - 1) (0, 0) = pts.getD m (0, 0) := by
          rw [List.getD_append_right _ _ _ _ (by rw [List.length_dropLast]),
            List.length_dropLast, Nat.sub_self, hSReq]
          rfl
        have hsubL : ∀ v ∈ SL.dropLast, v ∈ pts.take m := by
          intro v hv
          have h1 := sublist_dropLast hLsub
          rw [take_succ_dropLast (by omega)] at h1
          exact h1.subset hv
        have hfind : findMaxDist (SL.dropLast ++ SR)
            = ((findMaxDist pts).1, SL.length - 1) := by
          show (List.range' 1 ((SL.dropLast ++ SR).length - 2)).foldl
              (dpStep (SL.dropLast ++ SR)) (0, 0) = _
          apply foldl_dpStep_max
          · omega
          · omega
          · rw [hchord, hkd, hmd]
            rfl
          · exact hpos
          · intro i h1i hik
            rw [hchord]
            have hilt : i < SL.dropLast.length := by
              rw [List.length_dropLast]
              omega
            have higet : (SL.dropLast ++ SR).getD i (0, 0) ∈ SL.dropLast := by
              rw [List.getD_append _ _ _ _ hilt]
              exact getD_mem hilt _
            exact hval_lt _ (hsubL _ higet)
          · intro i h1i hiub
            rw [hchord]
            by_cases hik : i < SL.length - 1
            · have hilt : i < SL.dropLast.length := by
                rw [List.length_dropLast]
                omega
              have higet : (SL.dropLast ++ SR).getD i (0, 0) ∈ SL.dropLast := by
                rw [List.getD_append _ _ _ _ hilt]
                exact getD_mem hilt _
              exact le_of_lt (hval_lt _ (hsubL _ higet))
            · have hige : SL.dropLast.length ≤ i := by
                rw [List.length_dropLast]
                omega
              have higet : (SL.dropLast ++ SR).getD i (0, 0) ∈ SR := by
                rw [List.getD_append_right _ _ _ _ hige]
                apply getD_mem
                rw [List.length_dropLast]
                omega
              exact hval_le _ (hRsub.subset higet)
        obtain ⟨g', rfl⟩ : ∃ g', g = g' + 1 := ⟨g - 1, by omega⟩
        have hunfold : simplifyPathF (g' + 1) (SL.dropLast ++ SR) ε
            = (simplifyPathF g' ((SL.dropLast ++ SR).take ((SL.length - 1) + 1)) ε).dropLast
              ++ simplifyPathF g' ((SL.dropLast ++ SR).drop (SL.length - 1)) ε := by
          simp only [simplifyPathF]
          rw [if_neg (by omega), hfind]
          dsimp only
          rw [if_pos hcond]
        have htakeS : (SL.dropLast ++ SR).take ((SL.length - 1) + 1) = SL := by
          rw [List.take_append_eq_append_take,
            List.take_of_length_le (by rw [List.length_dropLast]; omega),
            List.length_dropLast,
            show SL.length - 1 + 1 - (SL.length - 1) = 1 by omega, hSReq,
            show (pts.getD m (0, 0) :: tl).take 1 = [pts.getD m (0, 0)] by simp]
          exact hSLdecomp
        have hdropS : (SL.dropLast ++ SR).drop (SL.length - 1) = SR := by
          have h1 : SL.dropLast.length = SL.length - 1 := List.length_dropLast _
          rw [← h1, List.drop_left]
        rw [hunfold, htakeS, hdropS]
        have hA : (simplifyPathF f' (pts.take (m + 1)) ε).length = SL.length := rfl
        have hB : (simplifyPathF f' (pts.drop m) ε).length = SR.length := rfl
        have hIH_L : simplifyPathF g' SL ε = SL :=
          ih (pts.take (m + 1)) ε f' g' hε (by omega) (by omega) (by omega)
        have hIH_R : simplifyPathF g' SR ε = SR :=
          ih (pts.drop m) ε f' g' hε (by omega) (by omega) (by omega)
        rw [hIH_L, hIH_R]
      · -- chord branch: result has two points, second run is the identity
        have heq : simplifyPathF (f' + 1) pts ε
            = [pts.head?.getD (0, 0), pts.getLast?.getD (0, 0)] := by
          simp only [simplifyPathF]
          rw [if_neg (by omega), if_neg hcond]
        rw [heq]
        exact simplifyPathF_short (by simp)

/-- **C7 (amended).** For every `ε ≥ 0`, Douglas-Peucker simplification is
idempotent: applying it twice yields the same result as applying it once.
(The `ε = 0` half of the claim — identity — fails; see the counterexample.) -/
theorem C7_simplify_idempotent (points : List (ℚ × ℚ)) (ε : ℚ) (hε : 0 ≤ ε) :
    simplifyPath (simplifyPath points ε) ε = simplifyPath points ε := by
  unfold simplifyPath
  exact simplifyPathF_idem points.length points ε points.length _ hε
    (le_refl _) (le_refl _) (le_refl _)

/-- Witness for C7: idempotence on a concrete triangle at `ε = 0`. -/
theorem C7_simplify_idempotent_witness :
    simplifyPath (simplifyPath [((0 : ℚ), (0 : ℚ)), (1, 1), (2, 0)] 0) 0
      = simplifyPath [((0 : ℚ), (0 : ℚ)), (1, 1), (2, 0)] 0 :=
  C7_simplify_idempotent [((0 : ℚ), (0 : ℚ)), (1, 1), (2, 0)] 0 (by norm_num)

/-- **C7 (counterexample to the claim as stated).** With `ε = 0` the
simplification is *not* the identity: interior points lying exactly on the
chord are removed, because the recursion only keeps points at distance
strictly greater than `ε`.  Three collinear points collapse to two. -/
theorem C7_counterexample :
    simplifyPath [((0 : ℚ), (0 : ℚ)), (1, 0), (2, 0)] 0 = [((0 : ℚ), (0 : ℚ)), (2, 0)]
    ∧ simplifyPath [((0 : ℚ), (0 : ℚ)), (1, 0), (2, 0)] 0
        ≠ [((0 : ℚ), (0 : ℚ)), (1, 0), (2, 0)] := by
  have h : simplifyPath [((0 : ℚ), (0 : ℚ)), (1, 0), (2, 0)] 0
      = [((0 : ℚ), (0 : ℚ)), (2, 0)] := by
    norm_num [simplifyPath, simplifyPathF, findMaxDist, List.range', dpStep,
      dpDistSq, perpDistSq, distSqGtB]
  refine ⟨h, ?_⟩
  rw [h]
  intro hcontra
  have := congrArg List.length hcontra
  simp at this

/-! ## Zhang–Suen thinning (`src/lib/image/Thinning.ts`)

The binary grid is a list of rows of `ℕ` values (1 = ink, 0 = background),
exactly as the source builds `grid: number[][]`.  The `while` loop with its
`changed` flag and 1000-iteration safety cap becomes a fuel recursion whose
fuel is the number of iterations still allowed; the returned `ℕ` is the
source's `iterations` counter. -/

/-- An RGBA image as the browser presents it: `data` is the flat byte list,
four entries per pixel. -/
structure ImageData where
  width : ℕ
  height : ℕ
  data : List ℕ

/-- A binary pixel grid, row-major, as built by `zhangSuenThinning`. -/
def Grid : Type := List (List ℕ)

/-- `grid[y][x]` (the source only reads in-bounds cells). -/
def gridGet (g : Grid) (y x : ℕ) : ℕ := (g.getD y []).getD x 0

/-- `grid[y][x] = v`. -/
def gridSet (g : Grid) (y x v : ℕ) : Grid :=
  List.set g y ((g.getD y []).set x v)

/-- The 8 neighbours `[P2, P3, P4, P5, P6, P7, P8, P9]` of pixel `(x, y)`. -/
def getNeighbors (g : Grid) (x y : ℕ) : List ℕ :=
  [gridGet g (y - 1) x, gridGet g (y - 1) (x + 1), gridGet g y (x + 1),
   gridGet g (y + 1) (x + 1), gridGet g (y + 1) x, gridGet g (y + 1) (x - 1),
   gridGet g y (x - 1), gridGet g (y - 1) (x - 1)]

/-- `B(P1)`: number of 0→1 transitions in the circular neighbour sequence. -/
def countTransitions (neighbors : List ℕ) : ℕ :=
  ((List.range 8).filter fun i =>
    neighbors.getD i 0 == 0 && neighbors.getD ((i + 1) % 8) 0 == 1).length

/-- `A(P1)`: sum of the neighbour values (they are 0/1). -/
def countNonZeroNeighbors (neighbors : List ℕ) : ℕ :=
  neighbors.foldl (· + ·) 0

/-- Deletion condition of sub-iteration 1. -/
def shouldRemoveStep1 (g : Grid) (x y : ℕ) : Bool :=
  let neighbors := getNeighbors g x y
  decide (2 ≤ countNonZeroNeighbors neighbors)
    && decide (countNonZeroNeighbors neighbors ≤ 6)
    && countTransitions neighbors == 1
    && neighbors.getD 0 0 * neighbors.getD 2 0 * neighbors.getD 4 0 == 0
    && neighbors.getD 2 0 * neighbors.getD 4 0 * neighbors.getD 6 0 == 0

/-- Deletion condition of sub-iteration 2. -/
def shouldRemoveStep2 (g : Grid) (x y : ℕ) : Bool :=
  let neighbors := getNeighbors g x y
  decide (2 ≤ countNonZeroNeighbors neighbors)
    && decide (countNonZeroNeighbors neighbors ≤ 6)
    && countTransitions neighbors == 1
    && neighbors.getD 0 0 * neighbors.getD 2 0 * neighbors.getD 6 0 == 0
    && neighbors.getD 0 0 * neighbors.getD 4 0 * neighbors.getD 6 0 == 0

/-- The `toRemove` list of one sub-iteration: interior pixels that are 1 and
satisfy the step's deletion condition, scanned row by row as in the source. -/
def toRemoveList (width height : ℕ) (g : Grid) (step1 : Bool) : List (ℕ × ℕ) :=
  (List.range' 1 (height - 2)).flatMap fun y =>
    (List.range' 1 (width - 2)).filterMap fun x =>
      if gridGet g y x == 1
          && (if step1 then shouldRemoveStep1 g x y else shouldRemoveStep2 g x y)
        then some (x, y) else none

/-- Set every listed pixel to 0 (the `for (const [x, y] of toRemove)` loop). -/
def removeAll (g : Grid) (pts : List (ℕ × ℕ)) : Grid :=
  pts.foldl (fun g p => gridSet g p.2 p.1 0) g

/-- One full iteration of the `while` body: sub-iteration 1 then
sub-iteration 2; the Bool is the source's `changed` flag (set exactly when
some pixel was removed, i.e. when a `toRemove` list is non-empty). -/
def zsIter (width height : ℕ) (g : Grid) : Grid × Bool :=
  (removeAll (removeAll g (toRemoveList width height g true))
      (toRemoveList width height
        (removeAll g (toRemoveList width height g true)) false),
   !(toRemoveList width height g true).isEmpty
     || !(toRemoveList width height
            (removeAll g (toRemoveList width height g true)) false).isEmpty)

/-- The `while changed && iterations < maxIterations` loop; fuel is the
number of iterations still allowed, the returned `ℕ` the iteration count. -/
def zsRun (width height : ℕ) : ℕ → Grid → Grid × ℕ
  | 0, g => (g, 0)
  | fuel + 1, g =>
    if (zsIter width height g).2 then
      ((zsRun width height fuel (zsIter width height g).1).1,
       (zsRun width height fuel (zsIter width height g).1).2 + 1)
    else ((zsIter width height g).1, 1)

/-- Build the binary grid from the image: ink iff red channel > 128. -/
def gridOfImage (img : ImageData) : Grid :=
  (List.range img.height).map fun y =>
    (List.range img.width).map fun x =>
      if img.data.getD ((y * img.width + x) * 4) 0 > 128 then 1 else 0

/-- `zhangSuenThinning`: the final grid and the iteration count (the final
RGBA re-encoding of the grid is omitted; the claim is about the loop). -/
def zhangSuenThinning (img : ImageData) : Grid × ℕ :=
  zsRun img.width img.height 1000 (gridOfImage img)

/-- A pass that reports `changed = false` removed nothing, so it returns the
input grid unchanged. -/
theorem zsIter_false_eq (w h : ℕ) (g : Grid)
    (hf : (zsIter w h g).2 = false) : (zsIter w h g).1 = g := by
  unfold zsIter at hf ⊢
  cases h1 : toRemoveList w h g true with
  | cons p ps => rw [h1] at hf; simp at hf
  | nil =>
    rw [h1] at hf
    have hg : removeAll g ([] : List (ℕ × ℕ)) = g := rfl
    rw [hg] at hf ⊢
    simp at hf
    rw [hf]
    exact hg

/-- The iteration count never exceeds the fuel. -/
theorem zsRun_count_le (w h : ℕ) (fuel : ℕ) (g : Grid) :
    (zsRun w h fuel g).2 ≤ fuel := by
  induction fuel generalizing g with
  | zero => exact le_refl 0
  | succ n ih =>
    rw [zsRun]
    by_cases hc : (zsIter w h g).2 = true
    · rw [if_pos hc]
      exact Nat.succ_le_succ (ih _)
    · rw [if_neg hc]
      exact Nat.succ_le_succ (Nat.zero_le n)

/-- If the loop stopped before exhausting its fuel, the final grid is
stable: a further pass reports no change. -/
theorem zsRun_stable (w h : ℕ) (fuel : ℕ) (g : Grid)
    (hlt : (zsRun w h fuel g).2 < fuel) :
    (zsIter w h (zsRun w h fuel g).1).2 = false := by
  induction fuel generalizing g with
  | zero => exact absurd hlt (Nat.not_lt_zero _)
  | succ n ih =>
    by_cases hc : (zsIter w h g).2 = true
    · have h1 : zsRun w h (n + 1) g
          = ((zsRun w h n (zsIter w h g).1).1,
             (zsRun w h n (zsIter w h g).1).2 + 1) := by
        rw [zsRun, if_pos hc]
      rw [h1] at hlt ⊢
      dsimp only at hlt ⊢
      exact ih _ (by omega)
    · have hc' : (zsIter w h g).2 = false := by
        cases hb : (zsIter w h g).2
        · rfl
        · exact absurd hb hc
      have h1 : zsRun w h (n + 1) g = ((zsIter w h g).1, 1) := by
        rw [zsRun, if_neg hc]
      rw [h1]
      dsimp only
      rw [zsIter_false_eq w h g hc']
      exact hc'

/-- **C8.** `zhangSuenThinning` terminates on every input image: the
iteration count is at most the 1000-iteration safety cap, and unless the
cap itself was hit, the loop stopped because a full pass (both
sub-iterations) removed no pixel — a further pass leaves the final grid
unchanged and reports `changed = false`. -/
theorem C8_thinning_terminates (img : ImageData) :
    (zhangSuenThinning img).2 ≤ 1000
    ∧ ((zhangSuenThinning img).2 = 1000
        ∨ zsIter img.width img.height (zhangSuenThinning img).1
            = ((zhangSuenThinning img).1, false)) := by
  unfold zhangSuenThinning
  refine ⟨zsRun_count_le _ _ _ _, ?_⟩
  by_cases hc : (zsRun img.width img.height 1000 (gridOfImage img)).2 = 1000
  · exact Or.inl hc
  · refine Or.inr ?_
    have hle := zsRun_count_le img.width img.height 1000 (gridOfImage img)
    have hst := zsRun_stable img.width img.height 1000 (gridOfImage img)
      (by omega)
    exact Prod.ext (zsIter_false_eq _ _ _ hst) hst

/-- Witness for C8 at a concrete 2×2 blank image. -/
theorem C8_thinning_terminates_witness :
    (zhangSuenThinning ⟨2, 2, []⟩).2 ≤ 1000
    ∧ ((zhangSuenThinning ⟨2, 2, []⟩).2 = 1000
        ∨ zsIter 2 2 (zhangSuenThinning ⟨2, 2, []⟩).1
            = ((zhangSuenThinning ⟨2, 2, []⟩).1, false)) :=
  C8_thinning_terminates ⟨2, 2, []⟩

/-! ## `vectorizeCell` emptiness (`src/lib/image/PdfParser.ts`)

The content-bounds scan is embedded exactly; the downstream crop +
Gaussian smoothing + imagetracer call + SVG path extraction happen in the
browser DOM and an external library, so they are abstracted as a `tracer`
parameter returning `none` when the library throws and `some pathData`
otherwise.  The theorems quantify over every such `tracer`, so nothing
about the external code is assumed. -/

/-- The `bounds` record of a `VectorizationResult`. -/
structure TraceBounds where
  x : ℕ
  y : ℕ
  width : ℕ
  height : ℕ
deriving DecidableEq

/-- The result record of `vectorizeCell`. -/
structure VectorizationResult where
  svgPath : String
  bounds : TraceBounds
  isEmpty : Bool
deriving DecidableEq

/-- `data[(y*width + x)*4] > 128`: the pixel is ink. -/
def isInk (img : ImageData) (x y : ℕ) : Bool :=
  decide (128 < img.data.getD ((y * img.width + x) * 4) 0)

/-- State of the content-bounds scan. -/
structure ScanState where
  minX : ℕ
  minY : ℕ
  maxX : ℕ
  maxY : ℕ
  hasContent : Bool

/-- One step of the scan loop: an ink pixel extends the bounds. -/
def scanStep (img : ImageData) (s : ScanState) (p : ℕ × ℕ) : ScanState :=
  if isInk img p.1 p.2 then
    ⟨min s.minX p.1, min s.minY p.2, max s.maxX p.1, max s.maxY p.2, true⟩
  else s

/-- All pixel coordinates, row by row, as the nested `for` loops visit them. -/
def allPixels (img : ImageData) : List (ℕ × ℕ) :=
  (List.range img.height).flatMap fun y =>
    (List.range img.width).map fun x => (x, y)

/-- The content-bounds scan (`minX = width, minY = height, maxX = 0,
maxY = 0, hasContent = false` initially). -/
def contentScan (img : ImageData) : ScanState :=
  (allPixels img).foldl (scanStep img) ⟨img.width, img.height, 0, 0, false⟩

/-- The two `return` statements after the trace: `none` is the `catch`
branch (tracing threw), `some pathData` the successful extraction. -/
def traceOutcome (b : TraceBounds) (o : Option String) : VectorizationResult :=
  match o with
  | none => ⟨"", b, true⟩
  | some pathData => ⟨pathData, b, pathData.length == 0⟩

/-- `vectorizeCell`, with the crop/smooth/trace/extract pipeline abstracted
as `tracer img minX minY boundsW boundsH` (`none` = the library threw). -/
def vectorizeCell (tracer : ImageData → ℕ → ℕ → ℕ → ℕ → Option String)
    (img : ImageData) : VectorizationResult :=
  let s := contentScan img
  if !s.hasContent || decide (s.maxX ≤ s.minX) || decide (s.maxY ≤ s.minY) then
    ⟨"", ⟨0, 0, 0, 0⟩, true⟩
  else
    let minX := s.minX - 2
    let minY := s.minY - 2
    let maxX := min (img.width - 1) (s.maxX + 2)
    let maxY := min (img.height - 1) (s.maxY + 2)
    traceOutcome ⟨minX, minY, maxX - minX + 1, maxY - minY + 1⟩
      (tracer img minX minY (maxX - minX + 1) (maxY - minY + 1))

/-- The scan never shrinks `maxX`/`maxY`, never grows `minX`/`minY`, and
never clears `hasContent`. -/
theorem foldl_scanStep_mono (img : ImageData) (l : List (ℕ × ℕ))
    (s : ScanState) :
    (l.foldl (scanStep img) s).minX ≤ s.minX
    ∧ (l.foldl (scanStep img) s).minY ≤ s.minY
    ∧ s.maxX ≤ (l.foldl (scanStep img) s).maxX
    ∧ s.maxY ≤ (l.foldl (scanStep img) s).maxY
    ∧ (s.hasContent = true → (l.foldl (scanStep img) s).hasContent = true) := by
  induction l generalizing s with
  | nil => exact ⟨le_refl _, le_refl _, le_refl _, le_refl _, fun h => h⟩
  | cons p t ih =>
    rw [List.foldl_cons]
    have h1 := ih (scanStep img s p)
    unfold scanStep at h1 ⊢
    by_cases hi : isInk img p.1 p.2 = true
    · rw [if_pos hi] at h1 ⊢
      refine ⟨le_trans h1.1 (min_le_left _ _),
              le_trans h1.2.1 (min_le_left _ _),
              le_trans (le_max_left _ _) h1.2.2.1,
              le_trans (le_max_left _ _) h1.2.2.2.1,
              fun _ => h1.2.2.2.2 rfl⟩
    · rw [if_neg hi] at h1 ⊢
      exact h1

/-- Every ink pixel of the scanned list lies inside the final bounds. -/
theorem foldl_scanStep_bound (img : ImageData) (l : List (ℕ × ℕ))
    (s : ScanState) (p : ℕ × ℕ) (hp : p ∈ l) (hi : isInk img p.1 p.2 = true) :
    (l.foldl (scanStep img) s).minX ≤ p.1
    ∧ p.1 ≤ (l.foldl (scanStep img) s).maxX
    ∧ (l.foldl (scanStep img) s).minY ≤ p.2
    ∧ p.2 ≤ (l.foldl (scanStep img) s).maxY := by
  induction l generalizing s with
  | nil => cases hp
  | cons q t ih =>
    rw [List.foldl_cons]
    rcases List.mem_cons.mp hp with heq | hmem
    · subst heq
      have hm := foldl_scanStep_mono img t (scanStep img s p)
      have hs : (scanStep img s p).minX ≤ p.1
          ∧ p.1 ≤ (scanStep img s p).maxX
          ∧ (scanStep img s p).minY ≤ p.2
          ∧ p.2 ≤ (scanStep img s p).maxY := by
        unfold scanStep
        rw [if_pos hi]
        exact ⟨min_le_right _ _, le_max_right _ _,
               min_le_right _ _, le_max_right _ _⟩
      exact ⟨le_trans hm.1 hs.1, le_trans hs.2.1 hm.2.2.1,
             le_trans hm.2.1 hs.2.2.1, le_trans hs.2.2.2 hm.2.2.2.1⟩
    · exact ih _ hmem

/-- `hasContent` is set exactly when some scanned pixel is ink. -/
theorem foldl_scanStep_hasContent (img : ImageData) (l : List (ℕ × ℕ))
    (s : ScanState) :
    (l.foldl (scanStep img) s).hasContent = true
      ↔ (s.hasContent = true ∨ ∃ p ∈ l, isInk img p.1 p.2 = true) := by
  induction l generalizing s with
  | nil => simp
  | cons q t ih =>
    rw [List.foldl_cons, ih]
    unfold scanStep
    by_cases hi : isInk img q.1 q.2 = true
    · rw [if_pos hi]
      simp only [List.mem_cons]
      constructor
      · intro hor
        exact Or.inr ⟨q, Or.inl rfl, hi⟩
      · intro _
        exact Or.inl trivial
    · rw [if_neg hi]
      simp only [List.mem_cons]
      constructor
      · rintro (hs | ⟨p, hp, hip⟩)
        · exact Or.inl hs
        · exact Or.inr ⟨p, Or.inr hp, hip⟩
      · rintro (hs | ⟨p, hp, hip⟩)
        · exact Or.inl hs
        · rcases hp with heq | hmem
          · subst heq; exact absurd hip hi
          · exact Or.inr ⟨p, hmem, hip⟩

/-- The final `maxX` is either the initial one or the x of some ink pixel,
and likewise for `minX`, `maxY`, `minY`. -/
theorem foldl_scanStep_attain (img : ImageData) (l : List (ℕ × ℕ))
    (s : ScanState) :
    ((l.foldl (scanStep img) s).minX = s.minX
      ∨ ∃ p ∈ l, isInk img p.1 p.2 = true ∧ p.1 = (l.foldl (scanStep img) s).minX)
    ∧ ((l.foldl (scanStep img) s).maxX = s.maxX
      ∨ ∃ p ∈ l, isInk img p.1 p.2 = true ∧ p.1 = (l.foldl (scanStep img) s).maxX)
    ∧ ((l.foldl (scanStep img) s).minY = s.minY
      ∨ ∃ p ∈ l, isInk img p.1 p.2 = true ∧ p.2 = (l.foldl (scanStep img) s).minY)
    ∧ ((l.foldl (scanStep img) s).maxY = s.maxY
      ∨ ∃ p ∈ l, isInk img p.1 p.2 = true ∧ p.2 = (l.foldl (scanStep img) s).maxY) := by
  induction l generalizing s with
  | nil => exact ⟨Or.inl rfl, Or.inl rfl, Or.inl rfl, Or.inl rfl⟩
  | cons q t ih =>
    rw [List.foldl_cons]
    have h1 := ih (scanStep img s q)
    by_cases hi : isInk img q.1 q.2 = true
    · have hstep : scanStep img s q
          = ⟨min s.minX q.1, min s.minY q.2, max s.maxX q.1, max s.maxY q.2,
             true⟩ := by
        unfold scanStep; rw [if_pos hi]
      rw [hstep] at h1 ⊢
      refine ⟨?_, ?_, ?_, ?_⟩
      · rcases h1.1 with he | ⟨p, hp, hip, hpe⟩
        · rcases min_choice s.minX q.1 with hm | hm
          · exact Or.inl (by rw [he]; exact hm)
          · exact Or.inr ⟨q, List.mem_cons_self _ _, hi, by rw [he, hm]⟩
        · exact Or.inr ⟨p, List.mem_cons_of_mem _ hp, hip, hpe⟩
      · rcases h1.2.1 with he | ⟨p, hp, hip, hpe⟩
        · rcases max_choice s.maxX q.1 with hm | hm
          · exact Or.inl (by rw [he]; exact hm)
          · exact Or.inr ⟨q, List.mem_cons_self _ _, hi, by rw [he, hm]⟩
        · exact Or.inr ⟨p, List.mem_cons_of_mem _ hp, hip, hpe⟩
      · rcases h1.2.2.1 with he | ⟨p, hp, hip, hpe⟩
        · rcases min_choice s.minY q.2 with hm | hm
          · exact Or.inl (by rw [he]; exact hm)
          · exact Or.inr ⟨q, List.mem_cons_self _ _, hi, by rw [he, hm]⟩
        · exact Or.inr ⟨p, List.mem_cons_of_mem _ hp, hip, hpe⟩
      · rcases h1.2.2.2 with he | ⟨p, hp, hip, hpe⟩
        · rcases max_choice s.maxY q.2 with hm | hm
          · exact Or.inl (by rw [he]; exact hm)
          · exact Or.inr ⟨q, List.mem_cons_self _ _, hi, by rw [he, hm]⟩
        · exact Or.inr ⟨p, List.mem_cons_of_mem _ hp, hip, hpe⟩
    · have hstep : scanStep img s q = s := by
        unfold scanStep; rw [if_neg hi]
      rw [hstep] at h1 ⊢
      refine ⟨?_, ?_, ?_, ?_⟩
      · rcases h1.1 with he | ⟨p, hp, hip, hpe⟩
        · exact Or.inl he
        · exact Or.inr ⟨p, List.mem_cons_of_mem _ hp, hip, hpe⟩
      · rcases h1.2.1 with he | ⟨p, hp, hip, hpe⟩
        · exact Or.inl he
        · exact Or.inr ⟨p, List.mem_cons_of_mem _ hp, hip, hpe⟩
      · rcases h1.2.2.1 with he | ⟨p, hp, hip, hpe⟩
        · exact Or.inl he
        · exact Or.inr ⟨p, List.mem_cons_of_mem _ hp, hip, hpe⟩
      · rcases h1.2.2.2 with he | ⟨p, hp, hip, hpe⟩
        · exact Or.inl he
        · exact Or.inr ⟨p, List.mem_cons_of_mem _ hp, hip, hpe⟩

/-- Membership in the pixel enumeration. -/
theorem mem_allPixels (img : ImageData) (p : ℕ × ℕ) :
    p ∈ allPixels img ↔ p.1 < img.width ∧ p.2 < img.height := by
  unfold allPixels
  simp only [List.mem_flatMap, List.mem_map, List.mem_range]
  constructor
  · rintro ⟨y, hy, x, hx, heq⟩
    rw [← heq]
    exact ⟨hx, hy⟩
  · rintro ⟨h1, h2⟩
    exact ⟨p.2, h2, p.1, h1, rfl⟩

/-- `contentScan` unfolded to its fold. -/
theorem contentScan_def (img : ImageData) :
    contentScan img = (allPixels img).foldl (scanStep img)
      ⟨img.width, img.height, 0, 0, false⟩ := rfl

/-- A post-trace result always carries the padded bounds, whose width is
positive; it can never equal the all-zero empty record. -/
theorem traceOutcome_ne_empty (b : TraceBounds) (o : Option String)
    (hb : b.width ≠ 0) :
    traceOutcome b o ≠ ⟨"", ⟨0, 0, 0, 0⟩, true⟩ := by
  cases o with
  | none =>
    intro h
    simp only [traceOutcome, VectorizationResult.mk.injEq] at h
    exact hb (by rw [h.2.1])
  | some p =>
    intro h
    simp only [traceOutcome, VectorizationResult.mk.injEq] at h
    exact hb (by rw [h.2.1])

/-- The all-zero empty result is returned exactly when the early-exit
condition of the content-bounds scan fires. -/
theorem vectorizeCell_eq_empty_iff
    (tracer : ImageData → ℕ → ℕ → ℕ → ℕ → Option String) (img : ImageData) :
    vectorizeCell tracer img = ⟨"", ⟨0, 0, 0, 0⟩, true⟩
      ↔ (!(contentScan img).hasContent
          || decide ((contentScan img).maxX ≤ (contentScan img).minX)
          || decide ((contentScan img).maxY ≤ (contentScan img).minY))
          = true := by
  simp only [vectorizeCell]
  cases hc : (!(contentScan img).hasContent
      || decide ((contentScan img).maxX ≤ (contentScan img).minX)
      || decide ((contentScan img).maxY ≤ (contentScan img).minY)) with
  | true => simp
  | false =>
    simp only [Bool.false_eq_true, if_false, iff_false]
    exact traceOutcome_ne_empty _ _ (Nat.succ_ne_zero _)

/-- The early-exit condition holds exactly when there is no ink at all, or
all ink shares one column, or all ink shares one row. -/
theorem contentScan_cond_iff (img : ImageData) :
    (!(contentScan img).hasContent
      || decide ((contentScan img).maxX ≤ (contentScan img).minX)
      || decide ((contentScan img).maxY ≤ (contentScan img).minY)) = true
    ↔ ((∀ x < img.width, ∀ y < img.height, isInk img x y = false)
       ∨ (∃ c, ∀ x < img.width, ∀ y < img.height,
            isInk img x y = true → x = c)
       ∨ (∃ r, ∀ x < img.width, ∀ y < img.height,
            isInk img x y = true → y = r)) := by
  simp only [Bool.or_eq_true, Bool.not_eq_true', decide_eq_true_eq]
  constructor
  · intro hcond
    by_cases hHC : (contentScan img).hasContent = true
    · rcases hcond with (hnc | hx) | hy
      · rw [hHC] at hnc; cases hnc
      · refine Or.inr (Or.inl ⟨(contentScan img).minX, ?_⟩)
        intro x hxw y hyh hix
        have hb := foldl_scanStep_bound img (allPixels img)
          ⟨img.width, img.height, 0, 0, false⟩ (x, y)
          ((mem_allPixels img (x, y)).mpr ⟨hxw, hyh⟩) hix
        rw [← contentScan_def] at hb
        omega
      · refine Or.inr (Or.inr ⟨(contentScan img).minY, ?_⟩)
        intro x hxw y hyh hix
        have hb := foldl_scanStep_bound img (allPixels img)
          ⟨img.width, img.height, 0, 0, false⟩ (x, y)
          ((mem_allPixels img (x, y)).mpr ⟨hxw, hyh⟩) hix
        rw [← contentScan_def] at hb
        omega
    · refine Or.inl ?_
      intro x hxw y hyh
      cases hix : isInk img x y with
      | false => rfl
      | true =>
        exfalso
        apply hHC
        rw [contentScan_def, foldl_scanStep_hasContent]
        exact Or.inr ⟨(x, y), (mem_allPixels img (x, y)).mpr ⟨hxw, hyh⟩, hix⟩
  · intro hrhs
    by_cases hHC : (contentScan img).hasContent = true
    · rcases hrhs with hno | ⟨c, hcol⟩ | ⟨r, hrow⟩
      · exfalso
        have h1 := hHC
        rw [contentScan_def, foldl_scanStep_hasContent] at h1
        rcases h1 with h0 | ⟨p, hp, hip⟩
        · cases h0
        · have hm := (mem_allPixels img p).mp hp
          rw [hno p.1 hm.1 p.2 hm.2] at hip
          cases hip
      · refine Or.inl (Or.inr ?_)
        have hat := foldl_scanStep_attain img (allPixels img)
          ⟨img.width, img.height, 0, 0, false⟩
        rw [contentScan_def]
        rcases hat.2.1 with hmax0 | ⟨p, hp, hip, hpe⟩
        · have hmax0' : ((allPixels img).foldl (scanStep img)
              ⟨img.width, img.height, 0, 0, false⟩).maxX = 0 := hmax0
          omega
        · have hpm := (mem_allPixels img p).mp hp
          have hpc : p.1 = c := hcol p.1 hpm.1 p.2 hpm.2 hip
          rcases hat.1 with hmin0 | ⟨q, hq, hiq, hqe⟩
          · have hmin0' : ((allPixels img).foldl (scanStep img)
                ⟨img.width, img.height, 0, 0, false⟩).minX = img.width :=
              hmin0
            have h1 := hHC
            rw [contentScan_def, foldl_scanStep_hasContent] at h1
            rcases h1 with h0 | ⟨q0, hq0, hiq0⟩
            · cases h0
            · have hb := foldl_scanStep_bound img (allPixels img)
                ⟨img.width, img.height, 0, 0, false⟩ q0 hq0 hiq0
              have hq0m := (mem_allPixels img q0).mp hq0
              omega
          · have hqm := (mem_allPixels img q).mp hq
            have hqc : q.1 = c := hcol q.1 hqm.1 q.2 hqm.2 hiq
            omega
      · refine Or.inr ?_
        have hat := foldl_scanStep_attain img (allPixels img)
          ⟨img.width, img.height, 0, 0, false⟩
        rw [contentScan_def]
        rcases hat.2.2.2 with hmax0 | ⟨p, hp, hip, hpe⟩
        · have hmax0' : ((allPixels img).foldl (scanStep img)
              ⟨img.width, img.height, 0, 0, false⟩).maxY = 0 := hmax0
          omega
        · have hpm := (mem_allPixels img p).mp hp
          have hpc : p.2 = r := hrow p.1 hpm.1 p.2 hpm.2 hip
          rcases hat.2.2.1 with hmin0 | ⟨q, hq, hiq, hqe⟩
          · have hmin0' : ((allPixels img).foldl (scanStep img)
                ⟨img.width, img.height, 0, 0, false⟩).minY = img.height :=
              hmin0
            have h1 := hHC
            rw [contentScan_def, foldl_scanStep_hasContent] at h1
            rcases h1 with h0 | ⟨q0, hq0, hiq0⟩
            · cases h0
            · have hb := foldl_scanStep_bound img (allPixels img)
                ⟨img.width, img.height, 0, 0, false⟩ q0 hq0 hiq0
              have hq0m := (mem_allPixels img q0).mp hq0
              omega
          · have hqm := (mem_allPixels img q).mp hq
            have hqc : q.2 = r := hrow q.1 hqm.1 q.2 hqm.2 hiq
            omega
    · refine Or.inl (Or.inl ?_)
      cases hb : (contentScan img).hasContent with
      | false => rfl
      | true => exact absurd hb hHC

/-- **C10.** `vectorizeCell` returns `isEmpty = true` with `svgPath = ""`
and all-zero bounds exactly when the cell mask has no pixel above 128, or
all ink pixels lie in a single column, or all in a single row (the code's
`maxX <= minX` / `maxY <= minY` early exit); in particular a one-pixel-wide
vertical or one-pixel-tall horizontal stroke yields an empty result even
though ink is present.  Quantified over every behaviour of the external
tracing pipeline. -/
theorem C10_vectorize_empty
    (tracer : ImageData → ℕ → ℕ → ℕ → ℕ → Option String) (img : ImageData) :
    vectorizeCell tracer img = ⟨"", ⟨0, 0, 0, 0⟩, true⟩
      ↔ ((∀ x < img.width, ∀ y < img.height, isInk img x y = false)
         ∨ (∃ c, ∀ x < img.width, ∀ y < img.height,
              isInk img x y = true → x = c)
         ∨ (∃ r, ∀ x < img.width, ∀ y < img.height,
              isInk img x y = true → y = r)) :=
  (vectorizeCell_eq_empty_iff tracer img).trans (contentScan_cond_iff img)

/-- Witness for C10: a 1×3 vertical one-pixel-wide stroke (all pixels ink)
is reported empty with zero bounds, whatever the tracer would have done. -/
theorem C10_vectorize_empty_witness :
    vectorizeCell (fun _ _ _ _ _ => some "P")
      ⟨1, 3, [255, 0, 0, 255, 255, 0, 0, 255, 255, 0, 0, 255]⟩
      = ⟨"", ⟨0, 0, 0, 0⟩, true⟩ :=
  (C10_vectorize_empty (fun _ _ _ _ _ => some "P")
      ⟨1, 3, [255, 0, 0, 255, 255, 0, 0, 255, 255, 0, 0, 255]⟩).mpr
    (Or.inr (Or.inl ⟨0, by decide⟩))

/-! ## Marker-detection failure handling (`OpenCVProcessor.ts`,
`TemplateProcessor.ts`)

The OpenCV image operations (grayscale, Otsu threshold, contour search per
corner region, homography, warp, subtract, morphology) and the glyph
extraction loop run in an external library; they are abstracted as type
parameters and function/value parameters, so the theorems quantify over
every behaviour of those parts.  What is embedded from the source is the
control flow around them: how `detectCornerMarkers` assembles `success`
from the four per-corner results and always attaches the binarized image,
how `processPage` returns a partial `ProcessedPage` when `success` is
false, and how `processTemplatePage` (whose body is wrapped in
`try`/`catch`, so it returns rather than throws) converts that into a
`ProcessingResult` carrying the error string, the partial markers and the
debug images. -/

/-- `MarkerDetectionResult` (corner payloads abstracted as `Marker`). -/
structure MarkerDetectionResult (Img Marker : Type) where
  topLeft : Option Marker
  topRight : Option Marker
  bottomLeft : Option Marker
  bottomRight : Option Marker
  success : Bool
  debugBinary : Option Img

/-- `detectCornerMarkers`: the per-corner candidate search is external (its
four outcomes are the `tl tr bl br` parameters, the Otsu-binarized image is
`binary`); the function sets `success` iff all four corners were found and
always keeps the binary image for debugging. -/
def detectCornerMarkers {Img Marker : Type} (binary : Img)
    (tl tr bl br : Option Marker) : MarkerDetectionResult Img Marker :=
  ⟨tl, tr, bl, br, tl.isSome && tr.isSome && bl.isSome && br.isSome,
   some binary⟩

/-- `ProcessedPage`. -/
structure ProcessedPage (Img Marker : Type) where
  warped : Img
  subtracted : Img
  cleaned : Img
  thresholded : Option Img
  markers : MarkerDetectionResult Img Marker
  homography : Option Img

/-- `processPage`: on marker failure it returns a partial result built from
clones of the scan plus the thresholded debug image; otherwise it returns
`none` when the (external) homography fails, else the (external) warp /
subtract / cleanup outputs. -/
def processPage {Img Marker : Type} (scan : Img)
    (markers : MarkerDetectionResult Img Marker) (homography : Option Img)
    (warped subtracted cleaned : Img) : Option (ProcessedPage Img Marker) :=
  if !markers.success then
    some ⟨scan, scan, scan, some (markers.debugBinary.getD scan), markers,
          none⟩
  else
    match homography with
    | none => none
    | some h =>
        some ⟨warped, subtracted, cleaned, markers.debugBinary, markers,
              some h⟩

/-- The `debugImages` record of a `ProcessingResult`. -/
structure DebugImages (Img : Type) where
  warped : Option Img
  subtracted : Option Img
  cleaned : Option Img
  thresholded : Option Img

/-- `ProcessingResult` (glyph payloads abstracted as `Glyph`). -/
structure ProcessingResult (Img Marker Glyph : Type) where
  success : Bool
  glyphs : List Glyph
  debugImages : DebugImages Img
  markers : Option (MarkerDetectionResult Img Marker)
  error : Option String

/-- `processTemplatePage` from the `processPage` call on: `rest` is the
glyph-extraction continuation run only when all markers were found. -/
def processTemplatePage {Img Marker Glyph : Type}
    (processed : Option (ProcessedPage Img Marker))
    (rest : DebugImages Img → ProcessedPage Img Marker
      → ProcessingResult Img Marker Glyph) :
    ProcessingResult Img Marker Glyph :=
  match processed with
  | none =>
      ⟨false, [], ⟨none, none, none, none⟩, none,
       some "Failed to process page. Processing returned null."⟩
  | some p =>
      if !p.markers.success then
        ⟨false, [], ⟨some p.warped, some p.subtracted, some p.cleaned,
                     p.thresholded⟩, some p.markers,
         some "Failed to detect all 4 corner markers. Check the thresholded debug image."⟩
      else
        rest ⟨some p.warped, some p.subtracted, some p.cleaned,
              p.thresholded⟩ p

/-- **C5.** If fewer than all four corner markers are detected,
`processTemplatePage` returns (rather than throws) a result with
`success = false`, a non-empty error message, no glyphs, the partial
marker-detection result (each corner field exactly as detected), and
debug images populated — including the binarized (thresholded) image —
for every behaviour of the external OpenCV steps and of the extraction
continuation. -/
theorem C5_marker_failure {Img Marker Glyph : Type}
    (scan binary : Img) (tl tr bl br : Option Marker)
    (homography : Option Img) (warped subtracted cleaned : Img)
    (rest : DebugImages Img → ProcessedPage Img Marker
      → ProcessingResult Img Marker Glyph)
    (hfail : (tl.isSome && tr.isSome && bl.isSome && br.isSome) = false) :
    (processTemplatePage
        (processPage scan (detectCornerMarkers binary tl tr bl br)
          homography warped subtracted cleaned) rest).success = false
    ∧ (processTemplatePage
        (processPage scan (detectCornerMarkers binary tl tr bl br)
          homography warped subtracted cleaned) rest).error
      = some "Failed to detect all 4 corner markers. Check the thresholded debug image."
    ∧ (processTemplatePage
        (processPage scan (detectCornerMarkers binary tl tr bl br)
          homography warped subtracted cleaned) rest).glyphs = []
    ∧ (processTemplatePage
        (processPage scan (detectCornerMarkers binary tl tr bl br)
          homography warped subtracted cleaned) rest).markers
      = some (detectCornerMarkers binary tl tr bl br)
    ∧ (detectCornerMarkers binary tl tr bl br
        : MarkerDetectionResult Img Marker).topLeft = tl
    ∧ (detectCornerMarkers binary tl tr bl br
        : MarkerDetectionResult Img Marker).topRight = tr
    ∧ (detectCornerMarkers binary tl tr bl br
        : MarkerDetectionResult Img Marker).bottomLeft = bl
    ∧ (detectCornerMarkers binary tl tr bl br
        : MarkerDetectionResult Img Marker).bottomRight = br
    ∧ (processTemplatePage
        (processPage scan (detectCornerMarkers binary tl tr bl br)
          homography warped subtracted cleaned) rest).debugImages.thresholded
      = some binary
    ∧ (processTemplatePage
        (processPage scan (detectCornerMarkers binary tl tr bl br)
          homography warped subtracted cleaned) rest).debugImages.warped
      = some scan
    ∧ (processTemplatePage
        (processPage scan (detectCornerMarkers binary tl tr bl br)
          homography warped subtracted cleaned) rest).debugImages.subtracted
      = some scan
    ∧ (processTemplatePage
        (processPage scan (detectCornerMarkers binary tl tr bl br)
          homography warped subtracted cleaned) rest).debugImages.cleaned
      = some scan := by
  have hpp : processPage scan (detectCornerMarkers binary tl tr bl br)
      homography warped subtracted cleaned
      = some ⟨scan, scan, scan, some binary,
              detectCornerMarkers binary tl tr bl br, none⟩ := by
    unfold processPage detectCornerMarkers
    rw [hfail]
    rfl
  rw [hpp]
  simp [processTemplatePage, detectCornerMarkers, hfail]

/-- Witness for C5: one of four markers missing at concrete inputs. -/
theorem C5_marker_failure_witness :
    ((Option.some (0 : ℕ)).isSome && (Option.none : Option ℕ).isSome
      && (Option.none : Option ℕ).isSome
      && (Option.none : Option ℕ).isSome) = false
    ∧ (processTemplatePage
        (processPage (0 : ℕ)
          (detectCornerMarkers (1 : ℕ) (some 0) none none none)
          none 0 0 0)
        (fun _ _ => (⟨true, [], ⟨none, none, none, none⟩, none, none⟩
          : ProcessingResult ℕ ℕ ℕ))).success = false :=
  ⟨rfl,
   (C5_marker_failure 0 1 (some 0) none none none none 0 0 0
      (fun _ _ => (⟨true, [], ⟨none, none, none, none⟩, none, none⟩
        : ProcessingResult ℕ ℕ ℕ)) rfl).1⟩

/-! ## Endpoint welding (`src/lib/image/MonolineProcessor.ts`)

A stroke is its point list (the source's derived `length` field — a sum of
square roots, recomputed after welding — is omitted; the claim is about the
points).  `dist(a,b) <= weldRadius` over floats is embedded as the exact
equivalent `0 <= r && (a.x-b.x)^2 + (a.y-b.y)^2 <= r^2` over `ℚ`.  The
union-find `find` is embedded without its path-compression write-back (a
pure optimization that never changes which root `find` returns), with fuel
`parent.length`, which covers any chain the union operations can build. -/

/-- A stroke: its list of points. -/
abbrev Stroke : Type := List (ℚ × ℚ)

/-- The endpoint list: start and end of every stroke with at least two
points, tagged `(strokeIdx, isStart, point)`. -/
def strokeEndpoints (strokes : List Stroke) : List (ℕ × Bool × (ℚ × ℚ)) :=
  (List.range strokes.length).flatMap fun i =>
    if (strokes.getD i []).length < 2 then []
    else [(i, true, (strokes.getD i []).headD (0, 0)),
          (i, false, (strokes.getD i []).getLastD (0, 0))]

/-- `sqrt((a.x-b.x)^2 + (a.y-b.y)^2) <= r`, squared. -/
def withinRadius (a b : ℚ × ℚ) (r : ℚ) : Bool :=
  decide (0 ≤ r) && decide ((a.1 - b.1) ^ 2 + (a.2 - b.2) ^ 2 ≤ r ^ 2)

/-- `find` of the union-find (no path compression, fuelled). -/
def findRoot (parent : List ℕ) : ℕ → ℕ → ℕ
  | 0, i => i
  | fuel + 1, i =>
    if parent.getD i i == i then i else findRoot parent fuel (parent.getD i i)

/-- `union(i, j)`: link root of `i` under root of `j` if distinct. -/
def unionOp (parent : List ℕ) (i j : ℕ) : List ℕ :=
  if findRoot parent parent.length i == findRoot parent parent.length j then
    parent
  else
    parent.set (findRoot parent parent.length i)
      (findRoot parent parent.length j)

/-- The `(i, j)` pairs with `i < j < n`, in the nested-loop order. -/
def weldPairs (n : ℕ) : List (ℕ × ℕ) :=
  (List.range n).flatMap fun i =>
    (List.range' (i + 1) (n - (i + 1))).map fun j => (i, j)

/-- The clustering loop: union every endpoint pair within `weldRadius`,
starting from `parent[i] = i`. -/
def buildParent (eps : List (ℕ × Bool × (ℚ × ℚ))) (r : ℚ) : List ℕ :=
  (weldPairs eps.length).foldl
    (fun parent ij =>
      if withinRadius (eps.getD ij.1 (0, true, (0, 0))).2.2
          (eps.getD ij.2 (0, true, (0, 0))).2.2 r
      then unionOp parent ij.1 ij.2
      else parent)
    (List.range eps.length)

/-- All endpoints whose root is `ρ` (the `clusters` grouping). -/
def clusterMembers (eps : List (ℕ × Bool × (ℚ × ℚ))) (parent : List ℕ)
    (ρ : ℕ) : List (ℕ × Bool × (ℚ × ℚ)) :=
  (List.range eps.length).filterMap fun k =>
    if findRoot parent parent.length k == ρ then
      some (eps.getD k (0, true, (0, 0)))
    else none

/-- Centroid of a cluster's endpoint coordinates. -/
def centroidOf (mem : List (ℕ × Bool × (ℚ × ℚ))) : ℚ × ℚ :=
  ((mem.map fun e => e.2.2.1).sum / mem.length,
   (mem.map fun e => e.2.2.2).sum / mem.length)

/-- Index of the endpoint record of `(idx, isStart)` in the endpoint list. -/
def endpointIdx (eps : List (ℕ × Bool × (ℚ × ℚ))) (idx : ℕ) (isStart : Bool) :
    Option ℕ :=
  (List.range eps.length).find? fun k =>
    (eps.getD k (0, true, (0, 0))).1 == idx
      && ((eps.getD k (0, true, (0, 0))).2.1 == isStart)

/-- The `replacements` lookup: the centroid of the endpoint's cluster when
that cluster has two or more members, otherwise nothing. -/
def replacementFor (eps : List (ℕ × Bool × (ℚ × ℚ))) (parent : List ℕ)
    (idx : ℕ) (isStart : Bool) : Option (ℚ × ℚ) :=
  match endpointIdx eps idx isStart with
  | none => none
  | some k =>
      if (clusterMembers eps parent (findRoot parent parent.length k)).length
          ≤ 1 then none
      else some (centroidOf
        (clusterMembers eps parent (findRoot parent parent.length k)))

/-- Overwrite index `i` when a replacement is present. -/
def applyOpt (pts : List (ℚ × ℚ)) (i : ℕ) : Option (ℚ × ℚ) → List (ℚ × ℚ)
  | none => pts
  | some c => pts.set i c

/-- The per-stroke replacement application (`strokes.map((stroke, idx) =>`):
copy the points, overwrite `pts[0]` and/or `pts[pts.length - 1]`. -/
def weldStroke (strokes : List Stroke) (r : ℚ) (idx : ℕ) : Stroke :=
  let pts : List (ℚ × ℚ) := strokes.getD idx []
  let pts1 : List (ℚ × ℚ) := applyOpt pts 0
    (replacementFor (strokeEndpoints strokes)
      (buildParent (strokeEndpoints strokes) r) idx true)
  applyOpt pts1 (pts1.length - 1)
    (replacementFor (strokeEndpoints strokes)
      (buildParent (strokeEndpoints strokes) r) idx false)

/-- `weldEndpoints`. -/
def weldEndpoints (strokes : List Stroke) (weldRadius : ℚ) : List Stroke :=
  if strokes.isEmpty then strokes
  else (List.range strokes.length).map (weldStroke strokes weldRadius)

/-- Every endpoint record comes from a stroke with at least two points. -/
theorem mem_strokeEndpoints (strokes : List Stroke) (e : ℕ × Bool × (ℚ × ℚ))
    (he : e ∈ strokeEndpoints strokes) :
    2 ≤ (strokes.getD e.1 []).length := by
  unfold strokeEndpoints at he
  rw [List.mem_flatMap] at he
  obtain ⟨i, hi, hmem⟩ := he
  by_cases hlt : (strokes.getD i []).length < 2
  · rw [if_pos hlt] at hmem; cases hmem
  · rw [if_neg hlt] at hmem
    simp only [List.mem_cons, List.not_mem_nil, or_false] at hmem
    rcases hmem with he1 | he2
    · subst he1; exact Nat.le_of_not_lt hlt
    · subst he2; exact Nat.le_of_not_lt hlt

/-- A replacement is only ever produced for a stroke with two or more
points (shorter strokes contribute no endpoints). -/
theorem replacementFor_some_length (strokes : List Stroke) (parent : List ℕ)
    (idx : ℕ) (b : Bool) (c : ℚ × ℚ)
    (h : replacementFor (strokeEndpoints strokes) parent idx b = some c) :
    2 ≤ (strokes.getD idx []).length := by
  cases hk : endpointIdx (strokeEndpoints strokes) idx b with
  | none =>
    have hrw : replacementFor (strokeEndpoints strokes) parent idx b = none := by
      unfold replacementFor; rw [hk]
    rw [hrw] at h; cases h
  | some k =>
    have hk' := hk
    unfold endpointIdx at hk'
    have hp := List.find?_some hk'
    have hkm := List.mem_of_find?_eq_some hk'
    rw [List.mem_range] at hkm
    simp only [Bool.and_eq_true, beq_iff_eq] at hp
    have hklen : k < (strokeEndpoints strokes).length := by
      simpa [strokeEndpoints] using hkm
    have hmem : (strokeEndpoints strokes).getD k (0, true, (0, 0))
        ∈ strokeEndpoints strokes := by
      rw [List.getD_eq_getElem _ _ hklen]
      exact List.getElem_mem hklen
    have := mem_strokeEndpoints strokes _ hmem
    rw [hp.1] at this
    exact this

/-- A produced replacement is the centroid of the endpoint's union-find
cluster, and that cluster has at least two members. -/
theorem replacementFor_some_exists (eps : List (ℕ × Bool × (ℚ × ℚ)))
    (parent : List ℕ) (idx : ℕ) (b : Bool) (c : ℚ × ℚ)
    (h : replacementFor eps parent idx b = some c) :
    ∃ k, endpointIdx eps idx b = some k
      ∧ 2 ≤ (clusterMembers eps parent
              (findRoot parent parent.length k)).length
      ∧ c = centroidOf (clusterMembers eps parent
              (findRoot parent parent.length k)) := by
  cases hk : endpointIdx eps idx b with
  | none =>
    have hrw : replacementFor eps parent idx b = none := by
      unfold replacementFor; rw [hk]
    rw [hrw] at h; cases h
  | some k =>
    have hrw : replacementFor eps parent idx b
        = if (clusterMembers eps parent
              (findRoot parent parent.length k)).length ≤ 1 then none
          else some (centroidOf (clusterMembers eps parent
              (findRoot parent parent.length k))) := by
      unfold replacementFor; rw [hk]
    rw [hrw] at h
    by_cases hle : (clusterMembers eps parent
        (findRoot parent parent.length k)).length ≤ 1
    · rw [if_pos hle] at h; cases h
    · rw [if_neg hle] at h
      exact ⟨k, rfl, by omega, (Option.some.inj h).symm⟩

/-- Endpoints with the same union-find root receive the same
replacement (hence identical welded coordinates). -/
theorem replacementFor_congr (eps : List (ℕ × Bool × (ℚ × ℚ)))
    (parent : List ℕ) (idx : ℕ) (b : Bool) (idx2 : ℕ) (b2 : Bool) (k k2 : ℕ)
    (h1 : endpointIdx eps idx b = some k)
    (h2 : endpointIdx eps idx2 b2 = some k2)
    (hr : findRoot parent parent.length k
      = findRoot parent parent.length k2) :
    replacementFor eps parent idx b = replacementFor eps parent idx2 b2 := by
  have e1 : replacementFor eps parent idx b
      = if (clusterMembers eps parent
            (findRoot parent parent.length k)).length ≤ 1 then none
        else some (centroidOf (clusterMembers eps parent
            (findRoot parent parent.length k))) := by
    unfold replacementFor; rw [h1]
  have e2 : replacementFor eps parent idx2 b2
      = if (clusterMembers eps parent
            (findRoot parent parent.length k2)).length ≤ 1 then none
        else some (centroidOf (clusterMembers eps parent
            (findRoot parent parent.length k2))) := by
    unfold replacementFor; rw [h2]
  rw [e1, e2, hr]

/-- The stroke count is preserved. -/
theorem weldEndpoints_length (strokes : List Stroke) (r : ℚ) :
    (weldEndpoints strokes r).length = strokes.length := by
  unfold weldEndpoints
  by_cases he : strokes.isEmpty
  · rw [if_pos he]
  · rw [if_neg he, List.length_map, List.length_range]

/-- In range, the welded list is the per-stroke function. -/
theorem weldEndpoints_getD (strokes : List Stroke) (r : ℚ) (i : ℕ)
    (hi : i < strokes.length) :
    (weldEndpoints strokes r).getD i [] = weldStroke strokes r i := by
  unfold weldEndpoints
  have hne : strokes.isEmpty = false := by
    cases strokes
    · simp at hi
    · rfl
  rw [hne]
  simp only [Bool.false_eq_true, if_false]
  rw [List.getD_eq_getElem?_getD, List.getElem?_map, List.getElem?_range hi]
  rfl

/-- Out of range, both sides default to the empty stroke. -/
theorem weldEndpoints_getD_oob (strokes : List Stroke) (r : ℚ) (i : ℕ)
    (hi : strokes.length ≤ i) :
    (weldEndpoints strokes r).getD i [] = [] := by
  apply List.getD_eq_default
  rw [weldEndpoints_length]
  exact hi

/-- Welding never changes a stroke's point count. -/
theorem weldStroke_length (strokes : List Stroke) (r : ℚ) (idx : ℕ) :
    (weldStroke strokes r idx).length = (strokes.getD idx []).length := by
  simp only [weldStroke]
  cases h1 : replacementFor (strokeEndpoints strokes)
      (buildParent (strokeEndpoints strokes) r) idx true <;>
    cases h2 : replacementFor (strokeEndpoints strokes)
        (buildParent (strokeEndpoints strokes) r) idx false <;>
    simp [applyOpt, List.length_set]

/-- Interior points are untouched. -/
theorem weldStroke_interior (strokes : List Stroke) (r : ℚ) (idx k : ℕ)
    (h0 : 0 < k) (hk : k + 1 < (strokes.getD idx []).length) :
    (weldStroke strokes r idx)[k]? = (strokes.getD idx [])[k]? := by
  simp only [weldStroke]
  cases h1 : replacementFor (strokeEndpoints strokes)
      (buildParent (strokeEndpoints strokes) r) idx true with
  | none =>
    cases h2 : replacementFor (strokeEndpoints strokes)
        (buildParent (strokeEndpoints strokes) r) idx false with
    | none => rfl
    | some c =>
      simp only [applyOpt]
      exact List.getElem?_set_ne (by omega)
  | some c =>
    cases h2 : replacementFor (strokeEndpoints strokes)
        (buildParent (strokeEndpoints strokes) r) idx false with
    | none =>
      simp only [applyOpt]
      exact List.getElem?_set_ne (by omega)
    | some c2 =>
      simp only [applyOpt]
      rw [List.getElem?_set_ne (by rw [List.length_set]; omega),
        List.getElem?_set_ne (by omega)]

/-- No start replacement: the head is unchanged. -/
theorem weldStroke_head_none (strokes : List Stroke) (r : ℚ) (idx : ℕ)
    (hrs : replacementFor (strokeEndpoints strokes)
      (buildParent (strokeEndpoints strokes) r) idx true = none) :
    (weldStroke strokes r idx).head? = (strokes.getD idx []).head? := by
  simp only [weldStroke, hrs]
  cases h2 : replacementFor (strokeEndpoints strokes)
      (buildParent (strokeEndpoints strokes) r) idx false with
  | none => rfl
  | some c =>
    have hlen := replacementFor_some_length strokes _ idx false c h2
    simp only [applyOpt]
    rw [List.head?_eq_getElem?, List.head?_eq_getElem?]
    exact List.getElem?_set_ne (by omega)

/-- A start replacement overwrites the head with the centroid. -/
theorem weldStroke_head_some (strokes : List Stroke) (r : ℚ) (idx : ℕ)
    (c : ℚ × ℚ)
    (hrs : replacementFor (strokeEndpoints strokes)
      (buildParent (strokeEndpoints strokes) r) idx true = some c) :
    (weldStroke strokes r idx).head? = some c := by
  have hlen := replacementFor_some_length strokes _ idx true c hrs
  simp only [weldStroke, hrs]
  cases h2 : replacementFor (strokeEndpoints strokes)
      (buildParent (strokeEndpoints strokes) r) idx false with
  | none =>
    simp only [applyOpt]
    rw [List.head?_eq_getElem?]
    rw [List.getElem?_set_self (by omega)]
  | some c2 =>
    simp only [applyOpt]
    rw [List.head?_eq_getElem?,
      List.getElem?_set_ne (by rw [List.length_set]; omega),
      List.getElem?_set_self (by omega)]

/-- No end replacement: the last point is unchanged. -/
theorem weldStroke_last_none (strokes : List Stroke) (r : ℚ) (idx : ℕ)
    (hre : replacementFor (strokeEndpoints strokes)
      (buildParent (strokeEndpoints strokes) r) idx false = none) :
    (weldStroke strokes r idx).getLast? = (strokes.getD idx []).getLast? := by
  simp only [weldStroke, hre]
  cases h1 : replacementFor (strokeEndpoints strokes)
      (buildParent (strokeEndpoints strokes) r) idx true with
  | none => rfl
  | some c =>
    have hlen := replacementFor_some_length strokes _ idx true c h1
    simp only [applyOpt]
    rw [List.getLast?_eq_getElem?, List.getLast?_eq_getElem?,
      List.length_set]
    exact List.getElem?_set_ne (by omega)

/-- An end replacement overwrites the last point with the centroid. -/
theorem weldStroke_last_some (strokes : List Stroke) (r : ℚ) (idx : ℕ)
    (c : ℚ × ℚ)
    (hre : replacementFor (strokeEndpoints strokes)
      (buildParent (strokeEndpoints strokes) r) idx false = some c) :
    (weldStroke strokes r idx).getLast? = some c := by
  have hlen := replacementFor_some_length strokes _ idx false c hre
  simp only [weldStroke, hre]
  cases h1 : replacementFor (strokeEndpoints strokes)
      (buildParent (strokeEndpoints strokes) r) idx true with
  | none =>
    simp only [applyOpt, List.length_set]
    rw [List.getLast?_eq_getElem?, List.length_set]
    rw [List.getElem?_set_self (by omega)]
  | some c1 =>
    simp only [applyOpt, List.length_set]
    rw [List.getLast?_eq_getElem?, List.length_set, List.length_set]
    rw [List.getElem?_set_self (by simp only [List.length_set]; omega)]

/-- **C9.** `weldEndpoints` returns exactly as many strokes as it receives,
leaves every interior point (and every point of a stroke with fewer than
two points) unchanged, and changes a first/last point only when that
endpoint's union-find cluster has two or more members — in which case it is
overwritten with the cluster's centroid, the same coordinate for every
endpoint of that cluster. -/
theorem C9_weld_endpoints (strokes : List Stroke) (weldRadius : ℚ) :
    (weldEndpoints strokes weldRadius).length = strokes.length
    ∧ (∀ i, ((weldEndpoints strokes weldRadius).getD i []).length
        = (strokes.getD i []).length)
    ∧ (∀ i k, 0 < k → k + 1 < (strokes.getD i []).length →
        ((weldEndpoints strokes weldRadius).getD i [])[k]?
          = (strokes.getD i [])[k]?)
    ∧ (∀ i, (strokes.getD i []).length < 2 →
        (weldEndpoints strokes weldRadius).getD i [] = strokes.getD i [])
    ∧ (∀ i, i < strokes.length →
        (replacementFor (strokeEndpoints strokes)
            (buildParent (strokeEndpoints strokes) weldRadius) i true = none →
          ((weldEndpoints strokes weldRadius).getD i []).head?
            = (strokes.getD i []).head?)
        ∧ (∀ c, replacementFor (strokeEndpoints strokes)
            (buildParent (strokeEndpoints strokes) weldRadius) i true
              = some c →
          ((weldEndpoints strokes weldRadius).getD i []).head? = some c)
        ∧ (replacementFor (strokeEndpoints strokes)
            (buildParent (strokeEndpoints strokes) weldRadius) i false
              = none →
          ((weldEndpoints strokes weldRadius).getD i []).getLast?
            = (strokes.getD i []).getLast?)
        ∧ (∀ c, replacementFor (strokeEndpoints strokes)
            (buildParent (strokeEndpoints strokes) weldRadius) i false
              = some c →
          ((weldEndpoints strokes weldRadius).getD i []).getLast? = some c))
    ∧ (∀ idx b c, replacementFor (strokeEndpoints strokes)
          (buildParent (strokeEndpoints strokes) weldRadius) idx b
            = some c →
        2 ≤ (strokes.getD idx []).length
        ∧ ∃ k, endpointIdx (strokeEndpoints strokes) idx b = some k
          ∧ 2 ≤ (clusterMembers (strokeEndpoints strokes)
              (buildParent (strokeEndpoints strokes) weldRadius)
              (findRoot (buildParent (strokeEndpoints strokes) weldRadius)
                (buildParent (strokeEndpoints strokes) weldRadius).length
                k)).length
          ∧ c = centroidOf (clusterMembers (strokeEndpoints strokes)
              (buildParent (strokeEndpoints strokes) weldRadius)
              (findRoot (buildParent (strokeEndpoints strokes) weldRadius)
                (buildParent (strokeEndpoints strokes) weldRadius).length
                k)))
    ∧ (∀ idx b idx2 b2 k k2,
        endpointIdx (strokeEndpoints strokes) idx b = some k →
        endpointIdx (strokeEndpoints strokes) idx2 b2 = some k2 →
        findRoot (buildParent (strokeEndpoints strokes) weldRadius)
            (buildParent (strokeEndpoints strokes) weldRadius).length k
          = findRoot (buildParent (strokeEndpoints strokes) weldRadius)
            (buildParent (strokeEndpoints strokes) weldRadius).length k2 →
        replacementFor (strokeEndpoints strokes)
            (buildParent (strokeEndpoints strokes) weldRadius) idx b
          = replacementFor (strokeEndpoints strokes)
            (buildParent (strokeEndpoints strokes) weldRadius) idx2 b2) := by
  refine ⟨weldEndpoints_length strokes weldRadius, ?_, ?_, ?_, ?_, ?_, ?_⟩
  · intro i
    by_cases hi : i < strokes.length
    · rw [weldEndpoints_getD strokes weldRadius i hi]
      exact weldStroke_length strokes weldRadius i
    · rw [weldEndpoints_getD_oob strokes weldRadius i (by omega),
        List.getD_eq_default _ _ (by omega)]
  · intro i k h0 hk
    by_cases hi : i < strokes.length
    · rw [weldEndpoints_getD strokes weldRadius i hi]
      exact weldStroke_interior strokes weldRadius i k h0 hk
    · rw [List.getD_eq_default _ _ (by omega)] at hk
      simp at hk
  · intro i hlen
    by_cases hi : i < strokes.length
    · rw [weldEndpoints_getD strokes weldRadius i hi]
      have h1 : replacementFor (strokeEndpoints strokes)
          (buildParent (strokeEndpoints strokes) weldRadius) i true = none := by
        cases hr : replacementFor (strokeEndpoints strokes)
            (buildParent (strokeEndpoints strokes) weldRadius) i true with
        | none => rfl
        | some c =>
          have := replacementFor_some_length strokes _ i true c hr
          omega
      have h2 : replacementFor (strokeEndpoints strokes)
          (buildParent (strokeEndpoints strokes) weldRadius) i false = none := by
        cases hr : replacementFor (strokeEndpoints strokes)
            (buildParent (strokeEndpoints strokes) weldRadius) i false with
        | none => rfl
        | some c =>
          have := replacementFor_some_length strokes _ i false c hr
          omega
      simp only [weldStroke, h1, h2, applyOpt]
    · rw [weldEndpoints_getD_oob strokes weldRadius i (by omega),
        List.getD_eq_default _ _ (by omega)]
  · intro i hi
    rw [weldEndpoints_getD strokes weldRadius i hi]
    exact ⟨weldStroke_head_none strokes weldRadius i,
      fun c hc => weldStroke_head_some strokes weldRadius i c hc,
      weldStroke_last_none strokes weldRadius i,
      fun c hc => weldStroke_last_some strokes weldRadius i c hc⟩
  · intro idx b c hc
    exact ⟨replacementFor_some_length strokes _ idx b c hc,
      replacementFor_some_exists _ _ idx b c hc⟩
  · intro idx b idx2 b2 k k2 h1 h2 hr
    exact replacementFor_congr _ _ idx b idx2 b2 k k2 h1 h2 hr

/-- Witness for C9 at concrete inputs. -/
theorem C9_weld_endpoints_witness :
    (weldEndpoints [] 0).length = ([] : List Stroke).length :=
  (C9_weld_endpoints [] 0).1

/-! ## Per-cell component filter (`OpenCVProcessor.ts`
`removeSmallComponents` / `ensureInkIsWhite`, called per cell from
`TemplateProcessor.ts` with `rejectTopFraction = 0.15`)

`cv.connectedComponentsWithStats` is external library code.  Modelled from
the spec: components are the maximal sets of nonzero pixels connected
through 8-adjacency, a component's area is its pixel count and its centroid
the mean of its pixel coordinates.  The labelling is embedded as a
computable closure: a pixel's component is the fixpoint of expanding a
seed through 8-adjacent nonzero pixels (fuel = pixel count suffices), and
the label set `labelsToKeep` becomes the per-component keep predicate.
`centroidY < topRejectY` over floats is exact rational arithmetic here. -/

/-- All pixel coordinates `(x, y)` of a `w × h` grid, row-major. -/
def pixelList (w h : ℕ) : List (ℕ × ℕ) :=
  (List.range h).flatMap fun y => (List.range w).map fun x => (x, y)

/-- 8-adjacency: distinct pixels whose coordinates differ by at most 1. -/
def adj8 (p q : ℕ × ℕ) : Bool :=
  !(p == q) && decide (max (p.1 - q.1) (q.1 - p.1) ≤ 1)
    && decide (max (p.2 - q.2) (q.2 - p.2) ≤ 1)

/-- One closure step: all universe pixels that are foreground and equal or
adjacent to a pixel of `S`. -/
def expandOnce (U : List (ℕ × ℕ)) (good : ℕ × ℕ → Bool)
    (adj : ℕ × ℕ → ℕ × ℕ → Bool) (S : List (ℕ × ℕ)) : List (ℕ × ℕ) :=
  U.filter fun q => good q && S.any fun p => p == q || adj p q

/-- Iterated closure. -/
def compFuel (U : List (ℕ × ℕ)) (good : ℕ × ℕ → Bool)
    (adj : ℕ × ℕ → ℕ × ℕ → Bool) : ℕ → List (ℕ × ℕ) → List (ℕ × ℕ)
  | 0, S => S
  | f + 1, S => expandOnce U good adj (compFuel U good adj f S)

/-- `grid[y][x] != 0`: the pixel is foreground, and in bounds. -/
def goodB (m : Grid) (w h : ℕ) (p : ℕ × ℕ) : Bool :=
  decide (p.1 < w) && decide (p.2 < h) && (gridGet m p.2 p.1 != 0)

/-- The seed: the pixel itself, when in the universe and foreground. -/
def initS (U : List (ℕ × ℕ)) (good : ℕ × ℕ → Bool) (p : ℕ × ℕ) :
    List (ℕ × ℕ) :=
  U.filter fun z => z == p && good z

/-- The connected component of pixel `p` in mask `m` (empty when `p` is
background or out of bounds). -/
def component (m : Grid) (w h : ℕ) (p : ℕ × ℕ) : List (ℕ × ℕ) :=
  compFuel (pixelList w h) (goodB m w h) adj8 (pixelList w h).length
    (initS (pixelList w h) (goodB m w h) p)

/-- `cv.countNonZero`. -/
def countNonZero (m : Grid) (w h : ℕ) : ℕ :=
  ((pixelList w h).filter fun p => gridGet m p.2 p.1 != 0).length

/-- `cv.bitwise_not` on 8-bit data. -/
def bitwiseNot (m : Grid) : Grid :=
  m.map (List.map fun v => 255 - v)

/-- `ensureInkIsWhite`: flip polarity iff nonzero pixels exceed half the
image (`nonZero > total * 0.5` exactly as `total < 2 * nonZero`). -/
def ensureInkIsWhite (m : Grid) (w h : ℕ) : Grid :=
  if w * h < 2 * countNonZero m w h then bitwiseNot m else m

/-- Mean y-coordinate of a component (`centroids.doubleAt(i, 1)`). -/
def centroidY (comp : List (ℕ × ℕ)) : ℚ :=
  ((comp.map fun p => (p.2 : ℚ)).sum) / comp.length

/-- The keep test of the `labelsToKeep` loop: reject small areas, then
reject centroids inside the top band when `rejectTopFraction > 0`. -/
def keepB (comp : List (ℕ × ℕ)) (h minArea : ℕ) (frac : ℚ) : Bool :=
  decide (minArea ≤ comp.length)
    && !(decide (0 < frac) && decide (centroidY comp < h * frac))

/-- `removeSmallComponents`: normalize polarity, then write 255 exactly at
pixels whose (foreground) component is kept, 0 everywhere else. -/
def removeSmallComponents (m : Grid) (w h minArea : ℕ) (frac : ℚ) : Grid :=
  (List.range h).map fun y =>
    (List.range w).map fun x =>
      if goodB (ensureInkIsWhite m w h) w h (x, y)
          && keepB (component (ensureInkIsWhite m w h) w h (x, y)) h minArea
              frac
      then 255 else 0

/-- Membership in the pixel universe. -/
theorem mem_pixelList (w h : ℕ) (p : ℕ × ℕ) :
    p ∈ pixelList w h ↔ p.1 < w ∧ p.2 < h := by
  unfold pixelList
  simp only [List.mem_flatMap, List.mem_map, List.mem_range]
  constructor
  · rintro ⟨y, hy, x, hx, heq⟩
    rw [← heq]
    exact ⟨hx, hy⟩
  · rintro ⟨h1, h2⟩
    exact ⟨p.2, h2, p.1, h1, rfl⟩

/-- The pixel universe has no duplicates. -/
theorem pixelList_nodup (w h : ℕ) : (pixelList w h).Nodup := by
  unfold pixelList
  rw [List.nodup_flatMap]
  refine ⟨fun y hy => ?_, ?_⟩
  · exact List.Nodup.map (fun a b hab => congrArg Prod.fst hab)
      (List.nodup_range w)
  · refine (List.pairwise_lt_range h).imp ?_
    intro a b hab
    intro q hq1 hq2
    simp only [List.mem_map, List.mem_range] at hq1 hq2
    obtain ⟨x1, hx1, he1⟩ := hq1
    obtain ⟨x2, hx2, he2⟩ := hq2
    rw [← he2] at he1
    have := congrArg Prod.snd he1
    simp at this
    omega

/-- Fuel zero is the seed itself. -/
theorem compFuel_zero (U : List (ℕ × ℕ)) (good : ℕ × ℕ → Bool)
    (adj : ℕ × ℕ → ℕ × ℕ → Bool) (S : List (ℕ × ℕ)) :
    compFuel U good adj 0 S = S := rfl

/-- Unfolding of one closure iteration. -/
theorem compFuel_succ (U : List (ℕ × ℕ)) (good : ℕ × ℕ → Bool)
    (adj : ℕ × ℕ → ℕ × ℕ → Bool) (f : ℕ) (S : List (ℕ × ℕ)) :
    compFuel U good adj (f + 1) S
      = expandOnce U good adj (compFuel U good adj f S) := rfl

/-- Splitting the fuel. -/
theorem compFuel_add (U : List (ℕ × ℕ)) (good : ℕ × ℕ → Bool)
    (adj : ℕ × ℕ → ℕ × ℕ → Bool) (a b : ℕ) (S : List (ℕ × ℕ)) :
    compFuel U good adj (a + b) S
      = compFuel U good adj a (compFuel U good adj b S) := by
  induction a with
  | zero => rw [Nat.zero_add]; rfl
  | succ n ih =>
    have h1 : n + 1 + b = (n + b) + 1 := by omega
    rw [h1, compFuel_succ, compFuel_succ, ih]

/-- Membership in one closure step. -/
theorem mem_expandOnce (U : List (ℕ × ℕ)) (good : ℕ × ℕ → Bool)
    (adj : ℕ × ℕ → ℕ × ℕ → Bool) (S : List (ℕ × ℕ)) (q : ℕ × ℕ) :
    q ∈ expandOnce U good adj S
      ↔ q ∈ U ∧ good q = true ∧ ∃ p ∈ S, p = q ∨ adj p q = true := by
  unfold expandOnce
  rw [List.mem_filter]
  simp only [Bool.and_eq_true, List.any_eq_true, Bool.or_eq_true, beq_iff_eq]

/-- The closure never leaves the universe. -/
theorem expandOnce_sublist (U : List (ℕ × ℕ)) (good : ℕ × ℕ → Bool)
    (adj : ℕ × ℕ → ℕ × ℕ → Bool) (S : List (ℕ × ℕ)) :
    List.Sublist (expandOnce U good adj S) U := List.filter_sublist U

/-- Monotonicity of one step in the seed set. -/
theorem expandOnce_mono (U : List (ℕ × ℕ)) (good : ℕ × ℕ → Bool)
    (adj : ℕ × ℕ → ℕ × ℕ → Bool) (S S' : List (ℕ × ℕ))
    (hss : ∀ x ∈ S, x ∈ S') (q : ℕ × ℕ)
    (hq : q ∈ expandOnce U good adj S) : q ∈ expandOnce U good adj S' := by
  rw [mem_expandOnce] at hq ⊢
  obtain ⟨hU, hg, p, hp, hpq⟩ := hq
  exact ⟨hU, hg, p, hss p hp, hpq⟩

/-- One step depends only on the seed's membership. -/
theorem expandOnce_congr (U : List (ℕ × ℕ)) (good : ℕ × ℕ → Bool)
    (adj : ℕ × ℕ → ℕ × ℕ → Bool) (S S' : List (ℕ × ℕ))
    (hss : ∀ x, x ∈ S ↔ x ∈ S') :
    expandOnce U good adj S = expandOnce U good adj S' := by
  unfold expandOnce
  apply List.filter_congr
  intro q hqU
  have hany : (S.any fun p => p == q || adj p q)
      = (S'.any fun p => p == q || adj p q) := by
    rw [Bool.eq_iff_iff, List.any_eq_true, List.any_eq_true]
    constructor
    · rintro ⟨p, hp, h⟩; exact ⟨p, (hss p).mp hp, h⟩
    · rintro ⟨p, hp, h⟩; exact ⟨p, (hss p).mpr hp, h⟩
  rw [hany]

/-- Each good seed pixel survives a step. -/
theorem expandOnce_grow (U : List (ℕ × ℕ)) (good : ℕ × ℕ → Bool)
    (adj : ℕ × ℕ → ℕ × ℕ → Bool) (S : List (ℕ × ℕ))
    (hgood : ∀ x ∈ S, x ∈ U ∧ good x = true) (q : ℕ × ℕ) (hq : q ∈ S) :
    q ∈ expandOnce U good adj S := by
  rw [mem_expandOnce]
  exact ⟨(hgood q hq).1, (hgood q hq).2, q, hq, Or.inl rfl⟩

/-- The closure stays inside the universe. -/
theorem compFuel_sublist (U : List (ℕ × ℕ)) (good : ℕ × ℕ → Bool)
    (adj : ℕ × ℕ → ℕ × ℕ → Bool) (f : ℕ) (S : List (ℕ × ℕ))
    (hS : List.Sublist S U) : List.Sublist (compFuel U good adj f S) U := by
  cases f with
  | zero => exact hS
  | succ n => exact expandOnce_sublist U good adj _

/-- Closure members are in the universe and good. -/
theorem compFuel_good (U : List (ℕ × ℕ)) (good : ℕ × ℕ → Bool)
    (adj : ℕ × ℕ → ℕ × ℕ → Bool) (f : ℕ) (S : List (ℕ × ℕ))
    (hgood : ∀ x ∈ S, x ∈ U ∧ good x = true) :
    ∀ x ∈ compFuel U good adj f S, x ∈ U ∧ good x = true := by
  cases f with
  | zero => exact hgood
  | succ n =>
    intro x hx
    rw [compFuel_succ, mem_expandOnce] at hx
    exact ⟨hx.1, hx.2.1⟩

/-- The seed is contained in its closure. -/
theorem compFuel_grow (U : List (ℕ × ℕ)) (good : ℕ × ℕ → Bool)
    (adj : ℕ × ℕ → ℕ × ℕ → Bool) (f : ℕ) (S : List (ℕ × ℕ))
    (hgood : ∀ x ∈ S, x ∈ U ∧ good x = true) :
    ∀ x ∈ S, x ∈ compFuel U good adj f S := by
  induction f with
  | zero => exact fun x hx => hx
  | succ n ih =>
    intro x hx
    rw [compFuel_succ]
    exact expandOnce_grow U good adj _
      (compFuel_good U good adj n S hgood) x (ih x hx)

/-- More fuel can only add members. -/
theorem compFuel_fuel_mono (U : List (ℕ × ℕ)) (good : ℕ × ℕ → Bool)
    (adj : ℕ × ℕ → ℕ × ℕ → Bool) (f g : ℕ) (S : List (ℕ × ℕ))
    (hgood : ∀ x ∈ S, x ∈ U ∧ good x = true) (hfg : f ≤ g) :
    ∀ x ∈ compFuel U good adj f S, x ∈ compFuel U good adj g S := by
  induction g with
  | zero =>
    intro x hx
    have hf : f = 0 := by omega
    rw [hf] at hx
    exact hx
  | succ n ih =>
    intro x hx
    by_cases hf : f = n + 1
    · rw [← hf]; exact hx
    · have hle : f ≤ n := by omega
      rw [compFuel_succ]
      exact expandOnce_grow U good adj _
        (compFuel_good U good adj n S hgood) x (ih hle x hx)

/-- Monotonicity of the closure in the seed. -/
theorem compFuel_mono (U : List (ℕ × ℕ)) (good : ℕ × ℕ → Bool)
    (adj : ℕ × ℕ → ℕ × ℕ → Bool) (f : ℕ) (S S' : List (ℕ × ℕ))
    (hss : ∀ x ∈ S, x ∈ S') :
    ∀ x ∈ compFuel U good adj f S, x ∈ compFuel U good adj f S' := by
  induction f with
  | zero => exact hss
  | succ n ih =>
    intro x hx
    rw [compFuel_succ] at hx ⊢
    exact expandOnce_mono U good adj _ _ ih x hx

/-- A seed set closed under one step. -/
def StableSet (U : List (ℕ × ℕ)) (good : ℕ × ℕ → Bool)
    (adj : ℕ × ℕ → ℕ × ℕ → Bool) (S : List (ℕ × ℕ)) : Prop :=
  ∀ x, x ∈ expandOnce U good adj S ↔ x ∈ S

/-- Closing a stable set changes nothing (membership-wise). -/
theorem compFuel_of_stable (U : List (ℕ × ℕ)) (good : ℕ × ℕ → Bool)
    (adj : ℕ × ℕ → ℕ × ℕ → Bool) (S : List (ℕ × ℕ))
    (hst : StableSet U good adj S) (f : ℕ) :
    ∀ x, x ∈ compFuel U good adj f S ↔ x ∈ S := by
  induction f with
  | zero => exact fun x => Iff.rfl
  | succ n ih =>
    intro x
    rw [compFuel_succ, expandOnce_congr U good adj _ S ih]
    exact hst x

/-- Fuel equal to the universe size saturates the closure. -/
theorem compFuel_stable (U : List (ℕ × ℕ)) (good : ℕ × ℕ → Bool)
    (adj : ℕ × ℕ → ℕ × ℕ → Bool) (hU : U.Nodup) (S : List (ℕ × ℕ))
    (hS : List.Sublist S U) (hgood : ∀ x ∈ S, x ∈ U ∧ good x = true) :
    StableSet U good adj (compFuel U good adj U.length S) := by
  have haux : ∀ f : ℕ,
      (∃ j, j < f ∧ (∀ x, x ∈ compFuel U good adj (j + 1) S
        ↔ x ∈ compFuel U good adj j S))
      ∨ f ≤ (compFuel U good adj f S).length := by
    intro f
    induction f with
    | zero => exact Or.inr (Nat.zero_le _)
    | succ n ih =>
      rcases ih with ⟨j, hj, he⟩ | hlen
      · exact Or.inl ⟨j, by omega, he⟩
      · by_cases heq : ∀ x, x ∈ compFuel U good adj (n + 1) S
            ↔ x ∈ compFuel U good adj n S
        · exact Or.inl ⟨n, by omega, heq⟩
        · refine Or.inr ?_
          obtain ⟨x, hx⟩ := not_forall.mp heq
          have hxw : x ∈ compFuel U good adj (n + 1) S
              ∧ x ∉ compFuel U good adj n S := by
            by_cases hin : x ∈ compFuel U good adj n S
            · exfalso
              exact hx ⟨fun _ => hin,
                fun h => compFuel_fuel_mono U good adj n (n + 1) S hgood
                  (by omega) x hin⟩
            · by_cases hin1 : x ∈ compFuel U good adj (n + 1) S
              · exact ⟨hin1, hin⟩
              · exact absurd ⟨fun h => absurd h hin1,
                  fun h => absurd h hin⟩ hx
          have hnodup : (compFuel U good adj n S).Nodup :=
            List.Sublist.nodup (compFuel_sublist U good adj n S hS) hU
          have hsub : ∀ y ∈ x :: compFuel U good adj n S,
              y ∈ compFuel U good adj (n + 1) S := by
            intro y hy
            rcases List.mem_cons.mp hy with hy | hy
            · rw [hy]; exact hxw.1
            · exact compFuel_fuel_mono U good adj n (n + 1) S hgood
                (by omega) y hy
          have hsp : List.Subperm (x :: compFuel U good adj n S)
              (compFuel U good adj (n + 1) S) :=
            List.Nodup.subperm (List.nodup_cons.mpr ⟨hxw.2, hnodup⟩) hsub
          have := List.Subperm.length_le hsp
          simp only [List.length_cons] at this
          omega
  rcases haux U.length with ⟨j, hj, he⟩ | hlen
  · -- a step stabilized early; propagate to the final fuel
    have hstj : StableSet U good adj (compFuel U good adj j S) := by
      intro x
      rw [← compFuel_succ]
      exact he x
    have hmem : ∀ x, x ∈ compFuel U good adj U.length S
        ↔ x ∈ compFuel U good adj j S := by
      intro x
      have hsplit : U.length = (U.length - j) + j := by omega
      rw [hsplit, compFuel_add]
      exact compFuel_of_stable U good adj _ hstj (U.length - j) x
    intro x
    rw [expandOnce_congr U good adj _ _ hmem]
    rw [hstj x]
    exact (hmem x).symm
  · -- the closure filled the whole universe
    have hsub := compFuel_sublist U good adj U.length S hS
    have hlen2 := List.Sublist.length_le hsub
    have heqU : compFuel U good adj U.length S = U :=
      List.Sublist.eq_of_length hsub (by omega)
    intro x
    constructor
    · intro hx
      rw [heqU]
      exact List.Sublist.subset (expandOnce_sublist U good adj _) hx
    · intro hx
      exact expandOnce_grow U good adj _
        (compFuel_good U good adj U.length S hgood) x hx

/-- Membership in the seed. -/
theorem mem_initS (U : List (ℕ × ℕ)) (good : ℕ × ℕ → Bool) (p z : ℕ × ℕ) :
    z ∈ initS U good p ↔ z ∈ U ∧ z = p ∧ good z = true := by
  unfold initS
  rw [List.mem_filter]
  simp only [Bool.and_eq_true, beq_iff_eq]

/-- Seed pixels are in the universe and good. -/
theorem initS_good (U : List (ℕ × ℕ)) (good : ℕ × ℕ → Bool) (p : ℕ × ℕ) :
    ∀ x ∈ initS U good p, x ∈ U ∧ good x = true := by
  intro x hx
  rw [mem_initS] at hx
  exact ⟨hx.1, hx.2.2⟩

/-- 8-adjacency is symmetric. -/
theorem adj8_symm (p q : ℕ × ℕ) : adj8 p q = adj8 q p := by
  unfold adj8
  rw [Bool.eq_iff_iff]
  simp only [Bool.and_eq_true, Bool.not_eq_true', beq_eq_false_iff_ne,
    decide_eq_true_eq]
  constructor
  · rintro ⟨⟨hne, h1⟩, h2⟩
    refine ⟨⟨fun he => hne he.symm, ?_⟩, ?_⟩
    · rw [Nat.max_comm]; exact h1
    · rw [Nat.max_comm]; exact h2
  · rintro ⟨⟨hne, h1⟩, h2⟩
    refine ⟨⟨fun he => hne he.symm, ?_⟩, ?_⟩
    · rw [Nat.max_comm]; exact h1
    · rw [Nat.max_comm]; exact h2

/-- A component's pixels are in bounds and foreground. -/
theorem component_good (m : Grid) (w h : ℕ) (p : ℕ × ℕ) :
    ∀ x ∈ component m w h p,
      x ∈ pixelList w h ∧ goodB m w h x = true := by
  unfold component
  exact compFuel_good _ _ _ _ _ (initS_good _ _ _)

/-- A component is a duplicate-free selection of the universe. -/
theorem component_nodup (m : Grid) (w h : ℕ) (p : ℕ × ℕ) :
    (component m w h p).Nodup := by
  unfold component
  exact List.Sublist.nodup
    (compFuel_sublist _ _ _ _ _ (List.filter_sublist _))
    (pixelList_nodup w h)

/-- A good pixel belongs to its own component. -/
theorem self_mem_component (m : Grid) (w h : ℕ) (p : ℕ × ℕ)
    (hp : goodB m w h p = true) : p ∈ component m w h p := by
  have hpU : p ∈ pixelList w h := by
    rw [mem_pixelList]
    have := hp
    unfold goodB at this
    simp only [Bool.and_eq_true, decide_eq_true_eq] at this
    exact ⟨this.1.1, this.1.2⟩
  unfold component
  apply compFuel_grow _ _ _ _ _ (initS_good _ _ _)
  rw [mem_initS]
  exact ⟨hpU, rfl, hp⟩

/-- A background (or out-of-bounds) pixel has an empty component. -/
theorem component_of_not_good (m : Grid) (w h : ℕ) (p : ℕ × ℕ)
    (hp : goodB m w h p = false) : component m w h p = [] := by
  have hinit : initS (pixelList w h) (goodB m w h) p = [] := by
    rw [List.eq_nil_iff_forall_not_mem]
    intro z hz
    rw [mem_initS] at hz
    rw [hz.2.1, hp] at hz
    cases hz.2.2
  have hnil : ∀ f, compFuel (pixelList w h) (goodB m w h) adj8 f
      ([] : List (ℕ × ℕ)) = [] := by
    intro f
    induction f with
    | zero => rfl
    | succ n ih =>
      rw [compFuel_succ, ih]
      rw [List.eq_nil_iff_forall_not_mem]
      intro z hz
      rw [mem_expandOnce] at hz
      obtain ⟨_, _, r, hr, _⟩ := hz
      cases hr
  unfold component
  rw [hinit, hnil]

/-- The saturated component is closed under one more step. -/
theorem component_stable (m : Grid) (w h : ℕ) (p : ℕ × ℕ) :
    StableSet (pixelList w h) (goodB m w h) adj8 (component m w h p) := by
  unfold component
  exact compFuel_stable _ _ _ (pixelList_nodup w h) _
    (List.filter_sublist _) (initS_good _ _ _)

/-- The component of a member is contained in the original component. -/
theorem component_subset (m : Grid) (w h : ℕ) (p q : ℕ × ℕ)
    (hq : q ∈ component m w h p) :
    ∀ z ∈ component m w h q, z ∈ component m w h p := by
  have haux : ∀ f, ∀ z ∈ compFuel (pixelList w h) (goodB m w h) adj8 f
      (initS (pixelList w h) (goodB m w h) q), z ∈ component m w h p := by
    intro f
    induction f with
    | zero =>
      intro z hz
      rw [compFuel_zero, mem_initS] at hz
      rw [hz.2.1]
      exact hq
    | succ n ih =>
      intro z hz
      rw [compFuel_succ, mem_expandOnce] at hz
      obtain ⟨hzU, hzg, r, hr, hrz⟩ := hz
      have hrp := ih r hr
      have hz' : z ∈ expandOnce (pixelList w h) (goodB m w h) adj8
          (component m w h p) := by
        rw [mem_expandOnce]
        exact ⟨hzU, hzg, r, hrp, hrz⟩
      exact (component_stable m w h p z).mp hz'
  exact haux _

/-- Component membership is symmetric. -/
theorem component_symm (m : Grid) (w h : ℕ) (p q : ℕ × ℕ)
    (hq : q ∈ component m w h p) : p ∈ component m w h q := by
  have haux : ∀ f, ∀ z ∈ compFuel (pixelList w h) (goodB m w h) adj8 f
      (initS (pixelList w h) (goodB m w h) p), p ∈ component m w h z := by
    intro f
    induction f with
    | zero =>
      intro z hz
      rw [compFuel_zero, mem_initS] at hz
      rcases hz with ⟨hzU, hzp, hzg⟩
      subst hzp
      exact self_mem_component m w h z hzg
    | succ n ih =>
      intro z hz
      rw [compFuel_succ, mem_expandOnce] at hz
      obtain ⟨hzU, hzg, r, hr, hrz⟩ := hz
      have hpr := ih r hr
      rcases hrz with heq | hadj
      · rw [← heq]; exact hpr
      · -- r is adjacent to z, so r lies in z's component
        have hrgood := compFuel_good _ _ _ n _ (initS_good _ _ _) r hr
        have hrz' : r ∈ expandOnce (pixelList w h) (goodB m w h) adj8
            (initS (pixelList w h) (goodB m w h) z) := by
          rw [mem_expandOnce]
          refine ⟨hrgood.1, hrgood.2, z, ?_, ?_⟩
          · rw [mem_initS]
            exact ⟨hzU, rfl, hzg⟩
          · right
            rw [adj8_symm]
            exact hadj
        have hU1 : 1 ≤ (pixelList w h).length := by
          have := hrgood.1
          cases hl : pixelList w h with
          | nil => rw [hl] at this; cases this
          | cons a t => simp [hl]
        have hrcomp : r ∈ component m w h z := by
          unfold component
          have h1 : r ∈ compFuel (pixelList w h) (goodB m w h) adj8 1
              (initS (pixelList w h) (goodB m w h) z) := hrz'
          exact compFuel_fuel_mono _ _ _ 1 _ _ (initS_good _ _ _) hU1 r h1
        exact component_subset m w h z r hrcomp p hpr
  exact haux _ q hq

/-- Members see the same component (membership-wise). -/
theorem component_equiv (m : Grid) (w h : ℕ) (p q : ℕ × ℕ)
    (hq : q ∈ component m w h p) :
    ∀ z, z ∈ component m w h q ↔ z ∈ component m w h p :=
  fun z => ⟨fun hz => component_subset m w h p q hq z hz,
    fun hz => component_subset m w h q p (component_symm m w h p q hq) z hz⟩

/-- Members see the same component up to permutation, hence the same
area and centroid. -/
theorem component_perm (m : Grid) (w h : ℕ) (p q : ℕ × ℕ)
    (hq : q ∈ component m w h p) :
    (component m w h q).Perm (component m w h p) := by
  apply List.Subperm.antisymm
  · exact List.Nodup.subperm (component_nodup m w h q)
      (fun z hz => (component_equiv m w h p q hq z).mp hz)
  · exact List.Nodup.subperm (component_nodup m w h p)
      (fun z hz => (component_equiv m w h p q hq z).mpr hz)

/-- The keep test only depends on the component up to permutation. -/
theorem keepB_congr (c1 c2 : List (ℕ × ℕ)) (hp : c1.Perm c2)
    (h minArea : ℕ) (frac : ℚ) :
    keepB c1 h minArea frac = keepB c2 h minArea frac := by
  unfold keepB centroidY
  rw [List.Perm.length_eq hp,
    List.Perm.sum_eq (List.Perm.map (fun p => ((p.2 : ℚ))) hp)]

/-- Reading a freshly built grid. -/
theorem gridGet_build (w h : ℕ) (f : ℕ → ℕ → ℕ) (x y : ℕ)
    (hx : x < w) (hy : y < h) :
    gridGet ((List.range h).map fun y => (List.range w).map fun x => f y x)
      y x = f y x := by
  unfold gridGet
  simp only [List.getD_eq_getElem?_getD]
  rw [List.getElem?_map, List.getElem?_range hy]
  simp only [Option.map_some', Option.getD_some]
  rw [List.getElem?_map, List.getElem?_range hx]
  simp only [Option.map_some', Option.getD_some]

/-- Minority ink leaves the polarity untouched. -/
theorem ensureInkIsWhite_of_noflip (m : Grid) (w h : ℕ)
    (hnf : ¬ (w * h < 2 * countNonZero m w h)) :
    ensureInkIsWhite m w h = m := by
  unfold ensureInkIsWhite
  rw [if_neg hnf]

/-- Propositional form of the keep test. -/
theorem keepB_eq_true_iff (c : List (ℕ × ℕ)) (h minArea : ℕ) (frac : ℚ) :
    keepB c h minArea frac = true
      ↔ minArea ≤ c.length ∧ ¬(0 < frac ∧ centroidY c < h * frac) := by
  unfold keepB
  rw [Bool.and_eq_true, Bool.not_eq_true']
  simp only [decide_eq_true_eq, Bool.and_eq_false_iff, decide_eq_false_iff_not]
  constructor
  · rintro ⟨h1, h2⟩
    refine ⟨h1, ?_⟩
    rintro ⟨ha, hb⟩
    rcases h2 with h2 | h2
    · exact h2 ha
    · exact h2 hb
  · rintro ⟨h1, h2⟩
    refine ⟨h1, ?_⟩
    by_cases ha : 0 < frac
    · refine Or.inr ?_
      intro hb
      exact h2 ⟨ha, hb⟩
    · exact Or.inl ha

/-- Bounds from goodness. -/
theorem goodB_bounds (m : Grid) (w h : ℕ) (p : ℕ × ℕ)
    (hp : goodB m w h p = true) : p.1 < w ∧ p.2 < h := by
  unfold goodB at hp
  simp only [Bool.and_eq_true, decide_eq_true_eq] at hp
  exact ⟨hp.1.1, hp.1.2⟩

/-- **C4 (amended).** For a cell mask whose nonzero (ink) pixels do not
exceed half the cell — so `ensureInkIsWhite` does not flip the polarity —
the per-cell component filter writes 255 to a pixel exactly when it is
foreground and its 8-connected component has area at least
`minComponentArea` and a centroid y-coordinate outside the top
`rejectTopFraction` band, and 0 otherwise; consequently every pixel of one
component receives the same output value.  (Without the ink-minority
condition the claim fails: see the counterexample.) -/
theorem C4_component_filter (m : Grid) (w h minArea : ℕ) (frac : ℚ)
    (hnf : ¬ (w * h < 2 * countNonZero m w h)) :
    (∀ x y, x < w → y < h →
      gridGet (removeSmallComponents m w h minArea frac) y x
        = if goodB m w h (x, y) = true
            ∧ minArea ≤ (component m w h (x, y)).length
            ∧ ¬(0 < frac ∧ centroidY (component m w h (x, y)) < h * frac)
          then 255 else 0)
    ∧ (∀ p q, q ∈ component m w h p →
        gridGet (removeSmallComponents m w h minArea frac) q.2 q.1
          = gridGet (removeSmallComponents m w h minArea frac) p.2 p.1) := by
  have heiw := ensureInkIsWhite_of_noflip m w h hnf
  have hbuild : ∀ x y, x < w → y < h →
      gridGet (removeSmallComponents m w h minArea frac) y x
        = if goodB m w h (x, y)
            && keepB (component m w h (x, y)) h minArea frac
          then 255 else 0 := by
    intro x y hx hy
    unfold removeSmallComponents
    rw [heiw]
    exact gridGet_build w h _ x y hx hy
  constructor
  · intro x y hx hy
    rw [hbuild x y hx hy]
    refine if_congr ?_ rfl rfl
    rw [Bool.and_eq_true, keepB_eq_true_iff]
  · intro p q hq
    have hpg : goodB m w h p = true := by
      cases hb : goodB m w h p with
      | true => rfl
      | false =>
        rw [component_of_not_good m w h p hb] at hq
        cases hq
    have hqg : goodB m w h q = true := (component_good m w h p q hq).2
    have hqb := goodB_bounds m w h q hqg
    have hpb := goodB_bounds m w h p hpg
    rw [hbuild q.1 q.2 hqb.1 hqb.2, hbuild p.1 p.2 hpb.1 hpb.2]
    rw [show ((q.1, q.2) : ℕ × ℕ) = q from rfl,
      show ((p.1, p.2) : ℕ × ℕ) = p from rfl]
    rw [hqg, hpg, keepB_congr _ _ (component_perm m w h p q hq) h minArea frac]

/-- Witness for C4: a 1×3 mask with a single ink pixel at the top. -/
theorem C4_component_filter_witness :
    gridGet (removeSmallComponents [[255], [0], [0]] 1 3 1 (3 / 20)) 0 0
      = if goodB [[255], [0], [0]] 1 3 (0, 0) = true
          ∧ 1 ≤ (component [[255], [0], [0]] 1 3 (0, 0)).length
          ∧ ¬(0 < (3 / 20 : ℚ)
              ∧ centroidY (component [[255], [0], [0]] 1 3 (0, 0))
                  < ((3 : ℕ) : ℚ) * (3 / 20 : ℚ))
        then 255 else 0 :=
  (C4_component_filter [[255], [0], [0]] 1 3 1 (3 / 20) (by decide)).1 0 0
    (by norm_num) (by norm_num)

/-- **C4 (counterexample to the claim as stated).** Without the
ink-minority condition the characterization fails: on a 1×3 cell whose
bottom two pixels are ink, `ensureInkIsWhite` flips the polarity (ink is
the majority), the filter then labels the flipped image, and the output is
all zero — although the claim demands 255 at the ink pixel `(0, 1)`, whose
component has area 2 ≥ minArea and centroid y = 1.5 outside the top
0.15-band. -/
theorem C4_counterexample :
    ¬ (∀ (m : Grid) (w h minArea : ℕ) (frac : ℚ), ∀ x y, x < w → y < h →
        gridGet (removeSmallComponents m w h minArea frac) y x
          = if goodB m w h (x, y) = true
              ∧ minArea ≤ (component m w h (x, y)).length
              ∧ ¬(0 < frac ∧ centroidY (component m w h (x, y)) < h * frac)
            then 255 else 0) := by
  intro hclaim
  have h1 := hclaim [[0], [255], [255]] 1 3 1 (3 / 20) 0 1
    (by norm_num) (by norm_num)
  have hflip : ensureInkIsWhite [[0], [255], [255]] 1 3
      = [[255], [0], [0]] := by
    unfold ensureInkIsWhite
    rw [if_pos (by decide)]
    rfl
  have hL : gridGet (removeSmallComponents [[0], [255], [255]] 1 3 1 (3 / 20))
      1 0 = 0 := by
    unfold removeSmallComponents
    rw [hflip]
    rw [gridGet_build 1 3 _ 0 1 (by norm_num) (by norm_num)]
    have hg : goodB [[255], [0], [0]] 1 3 (0, 1) = false := by decide
    rw [hg, Bool.false_and]
    simp
  have hcomp : component [[0], [255], [255]] 1 3 (0, 1) = [(0, 1), (0, 2)] :=
    by decide
  rw [hL] at h1
  rw [if_pos ⟨by decide, by rw [hcomp]; norm_num,
    by rw [hcomp]; norm_num [centroidY]⟩] at h1
  exact absurd h1 (by norm_num)

end FontMaker
